import Mathlib

/-!
# Record Matching & Flagging Engine: a verification development

This file gives a shallow embedding, in Lean 4, of the record matching and
flagging engine of the `hirecordmatching` repository
(`match_analyzer.py` and `hoa_processing.py`), together with theorems
settling the behavioural claims made about it.

Modelling conventions:
* Python strings are Lean `String`s (operations restricted to the ASCII
  behaviour both languages share); Python string truthiness is `s ≠ ""`.
* Python `int` scores are `Nat` (the score only ever adds nonnegative
  weights); `rapidfuzz.fuzz.ratio` floats are modelled exactly as `ℚ`.
* Python `set`s of flags are `Finset MatchFlags`; the run-dependent
  enumeration order of Python sets of strings (`list(set(...))`) is
  modelled by an explicit ordering oracle, see `EmailOrder`.
* A pandas cell that may be NaN is an `Option String` (`none` = NaN).
* A raised exception inside the per-pair comparison of `match_records`
  is modelled by a scoring oracle returning `none` for that pair.
-/

set_option maxHeartbeats 1000000

namespace HM

/-! ## String primitives -/

/-- Python `str.lower`, restricted to ASCII. -/
def pyLower (s : String) : String := ⟨s.data.map Char.toLower⟩

/-- Characters removed by Python `str.strip()` at both ends. -/
def isWsChar (c : Char) : Bool := c.isWhitespace

/-- `str.strip()` on a list of characters. -/
def stripChars (l : List Char) : List Char :=
  ((l.dropWhile isWsChar).reverse.dropWhile isWsChar).reverse

/-- Python `str.strip()`. -/
def pyStrip (s : String) : String := ⟨stripChars s.data⟩

/-- Split a character list into maximal runs of non-whitespace characters,
dropping the separators: the pieces produced by Python `str.split()`. -/
def wordsAux : List Char → List Char → List (List Char)
  | cur, [] => if cur = [] then [] else [cur.reverse]
  | cur, c :: rest =>
    if isWsChar c then
      if cur = [] then wordsAux [] rest else cur.reverse :: wordsAux [] rest
    else wordsAux (c :: cur) rest

/-- Python `str.split()` (no argument: split on whitespace runs, drop empties). -/
def pyWords (l : List Char) : List (List Char) := wordsAux [] l

/-- `' '.join(pieces)` on character lists. -/
def joinSp (ws : List (List Char)) : List Char := (ws.intersperse [' ']).flatten

/-- `' '.join(s.split())`: collapse all whitespace runs to single spaces and
trim both ends. -/
def collapseWs (s : String) : String := ⟨joinSp (pyWords s.data)⟩

/-- `sanitize_string` from `hoa_processing.py`: non-string (NaN) becomes `""`;
otherwise lowercase, strip, collapse internal whitespace. The `strip` is
subsumed by split/join. -/
def sanitize_string : Option String → String
  | none => ""
  | some s => collapseWs (pyLower s)

/-- Python `str.replace(pat, rep)`, fuelled for structural recursion: replace
every non-overlapping occurrence, scanning left to right.  Each step consumes
at least one character, so fuel equal to the list length (as supplied by
`replaceList`) never runs out. -/
def replaceFuel (pat rep : List Char) : Nat → List Char → List Char
  | 0, l => l
  | _ + 1, [] => []
  | f + 1, c :: rest =>
    if pat ≠ [] ∧ pat.isPrefixOf (c :: rest) then
      rep ++ replaceFuel pat rep f (rest.drop (pat.length - 1))
    else
      c :: replaceFuel pat rep f rest

/-- Python `str.replace(pat, rep)` on character lists.  Total: an empty
pattern leaves the list unchanged (the replacement table of the source only
uses non-empty patterns). -/
def replaceList (pat rep : List Char) (l : List Char) : List Char :=
  replaceFuel pat rep l.length l

/-- Split a character list at every occurrence of the character `c`, keeping
empty pieces: Python `s.split('&')` semantics.  The result is always
nonempty. -/
def splitOnCharAux (c : Char) : List Char → List (List Char)
  | [] => [[]]
  | x :: xs =>
    match splitOnCharAux c xs with
    | [] => [[]]
    | h :: t => if x = c then [] :: h :: t else (x :: h) :: t

/-- Python `s.split('&')`. -/
def pySplitAmp (s : String) : List String :=
  (splitOnCharAux '&' s.data).map (fun l => ⟨l⟩)

/-- Python `c in s` for a single character. -/
def hasChar (c : Char) (s : String) : Bool :=
  s.data.any (fun x => decide (x = c))

/-- `sep.join(pieces)` for an arbitrary separator, on character lists. -/
def joinWith (sep : List Char) (ws : List (List Char)) : List Char :=
  (ws.intersperse sep).flatten

/-- `' & '.join(names)`. -/
def joinAmp (names : List String) : String :=
  ⟨joinWith " & ".data (names.map (fun s => s.data))⟩

/-- The ordered abbreviation table of `normalize_address` (Python dicts keep
insertion order, and `str.replace` is applied sequentially in that order). -/
def addressReplacements : List (List Char × List Char) :=
  [("street".data, "st".data), ("avenue".data, "ave".data),
   ("boulevard".data, "blvd".data), ("drive".data, "dr".data),
   ("road".data, "rd".data), ("lane".data, "ln".data),
   ("court".data, "ct".data), ("circle".data, "cir".data),
   ("place".data, "pl".data), ("north".data, "n".data),
   ("south".data, "s".data), ("east".data, "e".data),
   ("west".data, "w".data), ("northeast".data, "ne".data),
   ("northwest".data, "nw".data), ("southeast".data, "se".data),
   ("southwest".data, "sw".data)]

/-- `normalize_address` from `match_analyzer.py` (string branch): lowercase,
apply the substring replacement table in order, strip every character that is
neither alphanumeric nor whitespace, collapse whitespace. Non-string input is
handled at call sites (the typed model passes strings). -/
def normalize_address (s : String) : String :=
  let l := s.data.map Char.toLower
  let l := addressReplacements.foldl (fun acc pr => replaceList pr.1 pr.2 acc) l
  let l := l.filter (fun c => c.isAlphanum || c.isWhitespace)
  ⟨joinSp (pyWords l)⟩

/-! ## Fuzzy ratio

`rapidfuzz.fuzz.ratio` is the normalized Indel similarity scaled to
[0, 100]: with `dist = |a| + |b| - 2 * lcs(a, b)` the ratio is
`100 * (1 - dist / (|a| + |b|)) = 200 * lcs(a, b) / (|a| + |b|)`,
and `100` when both strings are empty. We model the returned float
exactly as a rational. -/

/-- Longest-common-subsequence length, fuelled for structural recursion.
Each recursive call shortens the combined length by at least one and the
fuel by exactly one, so fuel equal to the combined length (as supplied by
`lcsLen`) never runs out: when the fuel hits 0 both lists are empty. -/
def lcsFuel : Nat → List Char → List Char → Nat
  | 0, _, _ => 0
  | _ + 1, [], _ => 0
  | _ + 1, _ :: _, [] => 0
  | f + 1, a :: as, b :: bs =>
    if a = b then lcsFuel f as bs + 1
    else max (lcsFuel f (a :: as) bs) (lcsFuel f as (b :: bs))

/-- Length of a longest common subsequence of two character lists. -/
def lcsLen (a b : List Char) : Nat :=
  lcsFuel (a.length + b.length) a b

/-- `fuzz.ratio(a, b)` as an exact rational in [0, 100]. -/
def fuzzRatio (a b : String) : ℚ :=
  if a.data.length + b.data.length = 0 then 100
  else (200 * lcsLen a.data b.data : ℚ) / (a.data.length + b.data.length)

/-- `t ≤ fuzz.ratio(a, b)`, computed in integers (cleared denominators):
the form used inside the executable definitions.  `ratioGe_iff` proves it
equivalent to the rational comparison. -/
def ratioGe (t : Nat) (a b : String) : Bool :=
  if a.data.length + b.data.length = 0 then decide (t ≤ 100)
  else decide (t * (a.data.length + b.data.length) ≤ 200 * lcsLen a.data b.data)

/-- `t < fuzz.ratio(a, b)`, computed in integers. -/
def ratioGt (t : Nat) (a b : String) : Bool :=
  if a.data.length + b.data.length = 0 then decide (t < 100)
  else decide (t * (a.data.length + b.data.length) < 200 * lcsLen a.data b.data)

/-- `fuzz.ratio(a, b) < t`, computed in integers. -/
def ratioLt (t : Nat) (a b : String) : Bool :=
  if a.data.length + b.data.length = 0 then decide (100 < t)
  else decide (200 * lcsLen a.data b.data < t * (a.data.length + b.data.length))

/-! ## Flags and records -/

/-- The closed tag set of `MatchFlags` in `match_analyzer.py`. -/
inductive MatchFlags where
  | ADDRESS_MISMATCH
  | MULTIPLE_PROPERTIES
  | ADDRESS_FORMAT_DIFF
  | NAME_MISMATCH
  | MULTIPLE_RESIDENTS
  | NAME_ORDER_SWAP
  | COMPANY_RECORD
  | HOUSEHOLD_COMPOSITION_CHANGE
  | PARTIAL_HOUSEHOLD_MATCH
  | NAME_COUNT_CHANGE
  | COMMON_MEMBER_PRESENT
  | EMAIL_CHECK_NEEDED
  | EMAIL_PRESERVED
  | MULTIPLE_EMAILS
  | NO_EMAILS
  | NEW_RECORD
  | RECORD_REMOVED
  | HIGH_CONFIDENCE_MATCH
  | MEDIUM_CONFIDENCE_MATCH
  | LOW_CONFIDENCE_MATCH
  | POTENTIAL_DUPLICATE
deriving DecidableEq, Repr

/-- The household `Email` field: a raw (scraped) record holds a single string,
a condensed record holds a list — Python's `Union[List[str], str]`. -/
inductive EmailField where
  | str (s : String)
  | list (l : List String)
deriving DecidableEq, Repr

/-- Python truthiness of the email field before the list conversion is
irrelevant — `evaluate_email_flags` converts first.  Truthiness of the raw
field, used by `calculate_match_score`'s `hoa_record.get('Email')` test. -/
def EmailField.truthy : EmailField → Bool
  | .str s => s ≠ ""
  | .list l => l ≠ []

/-- The list conversion at the top of `evaluate_email_flags` and inside
`calculate_match_score`: a string is wrapped into a one-element list. -/
def EmailField.toList : EmailField → List String
  | .str s => [s]
  | .list l => l

/-- An owner (Excel-side) record, fields as in `load_and_process_excel_data`
(all cells cast to stripped strings). -/
structure ExcelRecord where
  firstName : String
  lastName : String
  email : String
  street : String
  city : String
  stateZip : String
deriving DecidableEq, Repr

/-- A household (HOA-side) record as consumed by the matching pass:
the fields produced by `condense_records`. -/
structure HouseholdRecord where
  firstName : String
  lastName : String
  email : EmailField
  propertyStreet : String
  propertyCity : String
  propertyStateZip : String
  fullPropertyAddress : String
  mailingStreet : String
  mailingCity : String
  mailingStateZip : String
  fullMailingAddress : String
  isCompany : Bool
  numUniquePeople : Nat
  numUniqueEmails : Nat
deriving DecidableEq, Repr

/-! ## The flag analyzer (`match_analyzer.py`) -/

/-- `MatchAnalyzer.compare_household_members`: split both full names on `'&'`,
strip and lowercase each token, and return (common, excel-only, hoa-only). -/
def compare_household_members (excelNames hoaNames : String) :
    Finset String × Finset String × Finset String :=
  let es := ((pySplitAmp excelNames).map (fun s => pyLower (pyStrip s))).toFinset
  let hs := ((pySplitAmp hoaNames).map (fun s => pyLower (pyStrip s))).toFinset
  (es ∩ hs, es \ hs, hs \ es)

/-- `MatchAnalyzer.evaluate_email_flags`. The string case is wrapped into a
one-element list before any emptiness test. -/
def evaluate_email_flags (excelEmail : String) (hoaEmails : EmailField) :
    Finset MatchFlags :=
  let l := hoaEmails.toList
  if excelEmail = "" ∧ l = [] then {MatchFlags.NO_EMAILS}
  else if excelEmail ≠ "" ∧ l = [] then {MatchFlags.EMAIL_PRESERVED}
  else
    (if 1 < l.length then {MatchFlags.MULTIPLE_EMAILS} else ∅) ∪
    (if excelEmail ≠ "" ∧
        ¬ l.any (fun m => decide (m ≠ "") && decide (pyLower m = pyLower excelEmail))
     then {MatchFlags.EMAIL_CHECK_NEEDED} else ∅)

/-- The household-member block of `evaluate_name_flags`: runs when either
stripped full name contains `'&'`. -/
def memberFlagsOf (excelFull hoaFull : String) : Finset MatchFlags :=
  if hasChar '&' excelFull ∨ hasChar '&' hoaFull then
    let c := compare_household_members excelFull hoaFull
    (if c.1 ≠ ∅ then {MatchFlags.COMMON_MEMBER_PRESENT} else ∅) ∪
    (if c.2.1 ≠ ∅ ∨ c.2.2 ≠ ∅ then {MatchFlags.PARTIAL_HOUSEHOLD_MATCH} else ∅) ∪
    (if (pySplitAmp excelFull).length ≠ (pySplitAmp hoaFull).length
     then {MatchFlags.NAME_COUNT_CHANGE} else ∅) ∪
    (if c.1 ≠ ∅ ∧ (c.2.1 ≠ ∅ ∨ c.2.2 ≠ ∅)
     then {MatchFlags.HOUSEHOLD_COMPOSITION_CHANGE} else ∅)
  else ∅

/-- The mismatch/swap block of `evaluate_name_flags`: runs when both raw
last names are non-empty; on a lowercased last-name ratio below 90 it flags
NAME_ORDER_SWAP when the owner's last name has ratio strictly above 90
against the household's first name, else NAME_MISMATCH. -/
def lastNameFlagsOf (e : ExcelRecord) (h : HouseholdRecord) : Finset MatchFlags :=
  if e.lastName ≠ "" ∧ h.lastName ≠ "" then
    if ratioLt 90 (pyLower e.lastName) (pyLower h.lastName) then
      if ratioGt 90 (pyLower e.lastName) (pyLower h.firstName)
      then {MatchFlags.NAME_ORDER_SWAP}
      else {MatchFlags.NAME_MISMATCH}
    else ∅
  else ∅

/-- `MatchAnalyzer.evaluate_name_flags`.  A company record short-circuits;
otherwise the household-member block and the mismatch/swap block both
contribute. -/
def evaluate_name_flags (e : ExcelRecord) (h : HouseholdRecord) :
    Finset MatchFlags :=
  if h.isCompany then {MatchFlags.COMPANY_RECORD}
  else
    memberFlagsOf (pyStrip (e.firstName ++ " " ++ e.lastName))
        (pyStrip (h.firstName ++ " " ++ h.lastName)) ∪
      lastNameFlagsOf e h

/-- The owner full address built by the analyzer and the scorer:
`f"{street}\n{city}, {stateZip}"`. -/
def excelFullAddr (e : ExcelRecord) : String :=
  e.street ++ "\n" ++ e.city ++ ", " ++ e.stateZip

/-- `MatchAnalyzer.evaluate_address_flags`.  Returns no flags when either
full address is blank after stripping (which also skips the
MULTIPLE_PROPERTIES check). -/
def evaluate_address_flags (e : ExcelRecord) (h : HouseholdRecord) :
    Finset MatchFlags :=
  let ea := excelFullAddr e
  let ha := h.fullMailingAddress
  if pyStrip ea = "" ∨ pyStrip ha = "" then ∅
  else
    let en := normalize_address ea
    let hn := normalize_address ha
    (if en ≠ hn then
      (if ratioGe 90 en hn then {MatchFlags.ADDRESS_FORMAT_DIFF}
       else {MatchFlags.ADDRESS_MISMATCH})
     else ∅) ∪
    (if h.propertyStreet ≠ h.mailingStreet then {MatchFlags.MULTIPLE_PROPERTIES} else ∅)

/-- The three score booleans returned in `match_details`. -/
structure MatchDetails where
  email_match : Bool
  last_name_match : Bool
  address_match : Bool
deriving DecidableEq, Repr

/-- The email component condition of `calculate_match_score`: both email
fields truthy and the lowercased owner email equals the lowercase of some
truthy element of the household email list. -/
def emailScoreHit (e : ExcelRecord) (h : HouseholdRecord) : Bool :=
  decide (e.email ≠ "") && h.email.truthy &&
    h.email.toList.any
      (fun m => decide (m ≠ "") && decide (pyLower e.email = pyLower m))

/-- The last-name component condition: both non-empty and fuzzy ratio of the
lowercased last names at least 90. -/
def lastNameScoreHit (e : ExcelRecord) (h : HouseholdRecord) : Bool :=
  decide (e.lastName ≠ "") && decide (h.lastName ≠ "") &&
    ratioGe 90 (pyLower e.lastName) (pyLower h.lastName)

/-- The address component condition: both raw full-address strings truthy and
fuzzy ratio of the normalized addresses at least 90. -/
def addressScoreHit (e : ExcelRecord) (h : HouseholdRecord) : Bool :=
  decide (excelFullAddr e ≠ "") && decide (h.fullMailingAddress ≠ "") &&
    ratioGe 90 (normalize_address (excelFullAddr e))
      (normalize_address h.fullMailingAddress)

/-- `MatchAnalyzer.calculate_match_score`: score, match details, flags.
The score starts at 0 and adds the weights 50 / 35 / 15 for the email,
last-name and address conditions; confidence flags are derived from the
final score. -/
def calculate_match_score (e : ExcelRecord) (h : HouseholdRecord) :
    Nat × MatchDetails × Finset MatchFlags :=
  let baseFlags :=
    evaluate_email_flags e.email h.email ∪
    evaluate_name_flags e h ∪ evaluate_address_flags e h
  let score :=
    (if emailScoreHit e h then 50 else 0) +
    (if lastNameScoreHit e h then 35 else 0) +
    (if addressScoreHit e h then 15 else 0)
  let confFlags : Finset MatchFlags :=
    if 95 ≤ score then {MatchFlags.HIGH_CONFIDENCE_MATCH}
    else if 70 ≤ score then {MatchFlags.MEDIUM_CONFIDENCE_MATCH}
    else if 50 < score then {MatchFlags.LOW_CONFIDENCE_MATCH}
    else ∅
  (score, ⟨emailScoreHit e h, lastNameScoreHit e h, addressScoreHit e h⟩,
    baseFlags ∪ confFlags)

/-! ## Household condensation (`condense_records`) -/

/-- A raw per-contact row as loaded from the HOA CSV.  The three fields the
source guards with `pd.notna` / `dropna` may be NaN and are `Option String`
(`none` = NaN); address fields are produced as strings by the scraper. -/
structure RawContact where
  firstName : Option String
  lastName : Option String
  email : Option String
  propertyStreet : String
  propertyCity : String
  propertyStateZip : String
  fullPropertyAddress : String
  mailingStreet : String
  mailingCity : String
  mailingStateZip : String
  fullMailingAddress : String
  isCompany : Bool
deriving DecidableEq, Repr

/-- The grouping key of `condense_records`:
`sanitized last name + "|" + sanitized property address`. -/
def groupKey (r : RawContact) : String :=
  sanitize_string r.lastName ++ "|" ++ sanitize_string (some r.fullPropertyAddress)

/-- The distinct group keys of a batch, in order of first appearance.
(pandas `groupby` enumerates groups in sorted-key order; every claim we
settle is insensitive to the enumeration order of the groups, so the model
fixes the deterministic first-appearance order.) -/
def keysFuel : Nat → List RawContact → List String
  | 0, _ => []
  | _ + 1, [] => []
  | f + 1, r :: rest =>
    groupKey r :: keysFuel f (rest.filter (fun x => decide (groupKey x ≠ groupKey r)))

/-- Fuelled for structural recursion: filtering never lengthens the tail, so
fuel equal to the batch length (as supplied by `keysInOrder`) never runs
out. -/
def keysInOrder (df : List RawContact) : List String :=
  keysFuel df.length df

/-- The group of a key inside a batch (original order preserved, as pandas
`groupby` does within each group). -/
def groupOf (df : List RawContact) (k : String) : List RawContact :=
  df.filter (fun r => decide (groupKey r = k))

def uniqueFuel : Nat → List String → List String
  | 0, _ => []
  | _ + 1, [] => []
  | f + 1, x :: xs => x :: uniqueFuel f (xs.filter (fun y => decide (y ≠ x)))

/-- pandas `Series.unique`: distinct values in order of first appearance.
Fuelled for structural recursion, with fuel the list length. -/
def uniqueFirst (l : List String) : List String :=
  uniqueFuel l.length l

/-- An enumeration oracle for `list(set(xs))`: Python materialises the set of
distinct elements in an order that depends on the process's string hashing,
not on the input.  A valid oracle returns the distinct elements (one copy
each, i.e. a permutation of `xs.dedup`) in some order. -/
def EmailOrderValid (σ : List String → List String) : Prop :=
  ∀ xs : List String, (σ xs).Perm xs.dedup

/-- The single-contact branch of `condense_records`. -/
def condenseSingle (r : RawContact) : HouseholdRecord :=
  let email : List String :=
    match r.email with
    | some m => if m ≠ "" then [m] else []
    | none => []
  { firstName := r.firstName.getD ""
    lastName := r.lastName.getD ""
    email := .list email
    propertyStreet := r.propertyStreet
    propertyCity := r.propertyCity
    propertyStateZip := r.propertyStateZip
    fullPropertyAddress := r.fullPropertyAddress
    mailingStreet := r.mailingStreet
    mailingCity := r.mailingCity
    mailingStateZip := r.mailingStateZip
    fullMailingAddress := r.fullMailingAddress
    isCompany := r.isCompany
    numUniquePeople := 1
    numUniqueEmails := email.length }

/-- The multi-contact branch of `condense_records`, on a group `r :: rest`
with at least two rows.  First names: `dropna().unique()` joined by `" & "`.
Emails: `list(set(...))` of the non-NaN, non-empty emails, enumerated by the
oracle `σ`.  All other fields come from the group's first row. -/
def condenseMulti (σ : List String → List String) (r : RawContact)
    (rest : List RawContact) : HouseholdRecord :=
  let g := r :: rest
  let firstNames := uniqueFirst (g.filterMap (fun x => x.firstName))
  let emails := σ ((g.filterMap (fun x => x.email)).filter (fun m => decide (m ≠ "")))
  { firstName := joinAmp firstNames
    lastName := r.lastName.getD ""
    email := .list emails
    propertyStreet := r.propertyStreet
    propertyCity := r.propertyCity
    propertyStateZip := r.propertyStateZip
    fullPropertyAddress := r.fullPropertyAddress
    mailingStreet := r.mailingStreet
    mailingCity := r.mailingCity
    mailingStateZip := r.mailingStateZip
    fullMailingAddress := r.fullMailingAddress
    isCompany := r.isCompany
    numUniquePeople := firstNames.length
    numUniqueEmails := emails.length }

/-- Condense one (necessarily nonempty) group. -/
def condenseGroup (σ : List String → List String) (r : RawContact)
    (rest : List RawContact) : HouseholdRecord :=
  if rest = [] then condenseSingle r else condenseMulti σ r rest

/-- A placeholder for the unreachable empty-group case. -/
def emptyHousehold : HouseholdRecord :=
  { firstName := "", lastName := "", email := .list [], propertyStreet := "",
    propertyCity := "", propertyStateZip := "", fullPropertyAddress := "",
    mailingStreet := "", mailingCity := "", mailingStateZip := "",
    fullMailingAddress := "", isCompany := false, numUniquePeople := 0,
    numUniqueEmails := 0 }

/-- `condense_records`: one condensed `HouseholdRecord` per distinct group
key, parameterised by the set-enumeration oracle `σ`. -/
def condense_records (σ : List String → List String)
    (df : List RawContact) : List HouseholdRecord :=
  (keysInOrder df).map (fun k =>
    match groupOf df k with
    | [] => emptyHousehold
    | r :: rest => condenseGroup σ r rest)

/-! ## The assignment engine (`match_records`) -/

/-- The `Match_Type` column values. -/
inductive MatchType where
  | exact
  | fuzzy
  | noMatch
deriving DecidableEq, Repr

/-- Sort rank of a match type: the source sorts the `Match_Type` strings
ascending, and `'Exact' < 'Fuzzy' < 'No Match'` lexically. -/
def MatchType.rank : MatchType → Nat
  | .exact => 0
  | .fuzzy => 1
  | .noMatch => 2

/-- The 21 flag constructors in declaration order: a canonical listing of
any flag set. -/
def allFlags : List MatchFlags :=
  [.ADDRESS_MISMATCH, .MULTIPLE_PROPERTIES, .ADDRESS_FORMAT_DIFF, .NAME_MISMATCH,
   .MULTIPLE_RESIDENTS, .NAME_ORDER_SWAP, .COMPANY_RECORD,
   .HOUSEHOLD_COMPOSITION_CHANGE, .PARTIAL_HOUSEHOLD_MATCH, .NAME_COUNT_CHANGE,
   .COMMON_MEMBER_PRESENT, .EMAIL_CHECK_NEEDED, .EMAIL_PRESERVED,
   .MULTIPLE_EMAILS, .NO_EMAILS, .NEW_RECORD, .RECORD_REMOVED,
   .HIGH_CONFIDENCE_MATCH, .MEDIUM_CONFIDENCE_MATCH, .LOW_CONFIDENCE_MATCH,
   .POTENTIAL_DUPLICATE]

/-- The canonical listing of a flag set (declaration order). -/
def canonFlagList (s : Finset MatchFlags) : List MatchFlags :=
  allFlags.filter (fun a => decide (a ∈ s))

/-- A flag-enumeration oracle: the list `[flag.name for flag in best_flags]`
is built by iterating a Python set of enum members, whose order depends on
the members' id-based hashes (per-process), not on the input.  The run is
parameterised by the order the iteration happens to produce. -/
def FlagOrder : Type := Finset MatchFlags → List MatchFlags

/-- A valid flag-enumeration oracle lists exactly the set's elements, once
each, in some order. -/
def FlagOrderValid (σ : FlagOrder) : Prop :=
  ∀ s : Finset MatchFlags, (σ s).Perm (canonFlagList s)

/-- The reversed canonical listing: another valid enumeration order. -/
def revFlagList (s : Finset MatchFlags) : List MatchFlags :=
  (canonFlagList s).reverse

/-- One output row of `match_records`.  `ownerIdx` / `hoaIdx` record which
input row (by position) each side of the row came from: they model the
`idx` / `best_hoa_idx` loop variables the source tracks in
`matched_excel_indices` / `matched_hoa_indices` (`none` for an absent side).
`flags` is a list, as emitted by `[flag.name for flag in best_flags]`. -/
structure MatchRow where
  ownerIdx : Option Nat
  hoaIdx : Option Nat
  excelFirstName : Option String
  excelLastName : Option String
  excelEmail : Option String
  excelStreet : Option String
  excelCity : Option String
  excelStateZip : Option String
  hoaFirstName : Option String
  hoaLastName : Option String
  hoaEmail : Option EmailField
  hoaStreet : Option String
  hoaCity : Option String
  hoaStateZip : Option String
  score : Nat
  emailMatch : Bool
  lastNameMatch : Bool
  addressMatch : Bool
  matchType : MatchType
  flags : List MatchFlags
deriving DecidableEq

/-- Enumerate a list with positions starting at `k` (pandas row labels after
`reset_index` are the positions). -/
def enumFromL {α : Type} (k : Nat) : List α → List (Nat × α)
  | [] => []
  | x :: xs => (k, x) :: enumFromL (k + 1) xs

/-- Insert `x` into `l` after every element that strictly precedes it:
stable insertion for the Boolean strict-precedence relation `lt`. -/
def insLt {α : Type} (lt : α → α → Bool) (x : α) : List α → List α
  | [] => [x]
  | y :: ys => if lt y x then y :: insLt lt x ys else x :: y :: ys

/-- Stable insertion sort by the strict-precedence relation `lt`. -/
def sortLt {α : Type} (lt : α → α → Bool) : List α → List α
  | [] => []
  | x :: xs => insLt lt x (sortLt lt xs)

/-- What `hoa_df.sort_values('Number of Unique People')` guarantees about
its output: a permutation of the (position-tagged) input rows that is
ascending in occupant count.  The default `kind='quicksort'` (numpy
introsort) is **unstable**, so no tie order — in particular not the
original order — is guaranteed. -/
def SortedBy (hoa : List HouseholdRecord)
    (sorted : List (Nat × HouseholdRecord)) : Prop :=
  sorted.Perm (enumFromL 0 hoa) ∧
  List.Pairwise (fun a b => a.2.numUniquePeople ≤ b.2.numUniquePeople) sorted

/-- A sort oracle: the concrete output `sort_values` produces for a given
input.  The run is parameterised by it because the tie order among equal
occupant counts is implementation-defined. -/
def SortOracle : Type := List HouseholdRecord → List (Nat × HouseholdRecord)

/-- A valid sort oracle returns, for every input, some admissible
`sort_values` outcome. -/
def SortOracleOK (σ : SortOracle) : Prop := ∀ hoa, SortedBy hoa (σ hoa)

/-- The sort routine is one fixed deterministic algorithm that argsorts the
key column alone: two inputs with equal occupant-count columns receive the
same row permutation.  This is what makes the (unstable) sort repeatable
across runs whose inputs differ only in non-key fields. -/
def KeyDetermined (σ : SortOracle) : Prop :=
  ∀ h₁ h₂ : List HouseholdRecord,
    h₁.map HouseholdRecord.numUniquePeople =
      h₂.map HouseholdRecord.numUniquePeople →
    (σ h₁).map Prod.fst = (σ h₂).map Prod.fst

/-- Strict occupant-count precedence between tagged rows. -/
def hoaLt (a b : Nat × HouseholdRecord) : Bool :=
  decide (a.2.numUniquePeople < b.2.numUniquePeople)

/-- Non-strict occupant-count precedence between tagged rows. -/
def hoaLe (a b : Nat × HouseholdRecord) : Bool :=
  decide (a.2.numUniquePeople ≤ b.2.numUniquePeople)

/-- The stable ascending insertion sort: one admissible `sort_values`
outcome (ties kept in original order). -/
def stableSortOracle : SortOracle := fun hoa => sortLt hoaLt (enumFromL 0 hoa)

/-- The anti-stable ascending insertion sort: another admissible outcome
(ties reversed). -/
def antiSortOracle : SortOracle := fun hoa => sortLt hoaLe (enumFromL 0 hoa)

/-- The projection of a tagged row that the occupant-count sort may
inspect: original position and sort key. -/
def keyProj (p : Nat × HouseholdRecord) : Nat × Nat :=
  (p.1, p.2.numUniquePeople)

/-- A scoring oracle: what `analyzer.calculate_match_score` returns for the
owner at position `i` against the household at position `j`, or `none` when
that call raises an exception (caught by the inner `try`/`except`, which
logs and `continue`s — i.e. treats the pair as "score not improved"). -/
def ScoreOracle : Type :=
  Nat → Nat → ExcelRecord → HouseholdRecord → Option (Nat × MatchDetails × Finset MatchFlags)

/-- The engine's actual oracle: the (total) scorer never fails in the typed
model. -/
def realOracle : ScoreOracle := fun _ _ e h => some (calculate_match_score e h)

/-- The loop state of one owner's scan: `(best_score, best match data)`. -/
def BestInfo : Type :=
  Nat × Option (Nat × HouseholdRecord × MatchDetails × Finset MatchFlags)

/-- One iteration of the inner household loop: skip already-claimed
households (and the pairs in `skipSet`, used only to state the
error-confinement claim; the engine runs with `skipSet = ∅`), treat an
oracle failure as no improvement, and update the best on a strictly
greater score. -/
def scanStep (f : ScoreOracle) (i : Nat) (e : ExcelRecord)
    (claimed skipSet : Finset Nat) (acc : BestInfo)
    (p : Nat × HouseholdRecord) : BestInfo :=
  if p.1 ∈ claimed ∨ p.1 ∈ skipSet then acc
  else
    match f i p.1 e p.2 with
    | none => acc
    | some r => if acc.1 < r.1 then (r.1, some (p.1, p.2, r.2.1, r.2.2)) else acc

/-- The full inner loop over the (sorted) household list. -/
def scanHoa (f : ScoreOracle) (i : Nat) (e : ExcelRecord)
    (claimed skipSet : Finset Nat) (l : List (Nat × HouseholdRecord)) : BestInfo :=
  l.foldl (scanStep f i e claimed skipSet) (0, none)

/-- The matched-row constructor of the first pass (`fl` is the already
listed flag set). -/
def mkMatchedRow (i : Nat) (e : ExcelRecord) (j : Nat) (h : HouseholdRecord)
    (score : Nat) (det : MatchDetails) (fl : List MatchFlags) : MatchRow :=
  { ownerIdx := some i
    hoaIdx := some j
    excelFirstName := some e.firstName
    excelLastName := some e.lastName
    excelEmail := some e.email
    excelStreet := some e.street
    excelCity := some e.city
    excelStateZip := some e.stateZip
    hoaFirstName := some h.firstName
    hoaLastName := some h.lastName
    hoaEmail := some h.email
    hoaStreet := some h.mailingStreet
    hoaCity := some h.mailingCity
    hoaStateZip := some h.mailingStateZip
    score := score
    emailMatch := det.email_match
    lastNameMatch := det.last_name_match
    addressMatch := det.address_match
    matchType := if 100 ≤ score then .exact else .fuzzy
    flags := fl }

/-- The unmatched-owner row (`RECORD_REMOVED`). -/
def removedRow (i : Nat) (e : ExcelRecord) : MatchRow :=
  { ownerIdx := some i
    hoaIdx := none
    excelFirstName := some e.firstName
    excelLastName := some e.lastName
    excelEmail := some e.email
    excelStreet := some e.street
    excelCity := some e.city
    excelStateZip := some e.stateZip
    hoaFirstName := none
    hoaLastName := none
    hoaEmail := none
    hoaStreet := none
    hoaCity := none
    hoaStateZip := none
    score := 0
    emailMatch := false
    lastNameMatch := false
    addressMatch := false
    matchType := .noMatch
    flags := [MatchFlags.RECORD_REMOVED] }

/-- The unclaimed-household row (`NEW_RECORD`). -/
def newRow (j : Nat) (h : HouseholdRecord) : MatchRow :=
  { ownerIdx := none
    hoaIdx := some j
    excelFirstName := none
    excelLastName := none
    excelEmail := none
    excelStreet := none
    excelCity := none
    excelStateZip := none
    hoaFirstName := some h.firstName
    hoaLastName := some h.lastName
    hoaEmail := some h.email
    hoaStreet := some h.mailingStreet
    hoaCity := some h.mailingCity
    hoaStateZip := some h.mailingStateZip
    score := 0
    emailMatch := false
    lastNameMatch := false
    addressMatch := false
    matchType := .noMatch
    flags := [MatchFlags.NEW_RECORD] }

/-- The state threaded through the first pass. -/
structure PassState where
  results : List MatchRow
  matchedHoa : Finset Nat
  matchedExcel : Finset Nat
deriving DecidableEq

/-- Process one owner: scan the households, and iff the best score is at
least 50 (in which case a best match was necessarily recorded), emit a
matched row — its flag set listed by the enumeration oracle `σf` — and
claim the household. -/
def ownerStep (f : ScoreOracle) (skip : Nat → Finset Nat) (σf : FlagOrder)
    (sorted : List (Nat × HouseholdRecord)) (st : PassState)
    (p : Nat × ExcelRecord) : PassState :=
  if 50 ≤ (scanHoa f p.1 p.2 st.matchedHoa (skip p.1) sorted).1 then
    match (scanHoa f p.1 p.2 st.matchedHoa (skip p.1) sorted).2 with
    | some b =>
      { results := st.results ++
          [mkMatchedRow p.1 p.2 b.1 b.2.1
            (scanHoa f p.1 p.2 st.matchedHoa (skip p.1) sorted).1 b.2.2.1
            (σf b.2.2.2)]
        matchedHoa := insert b.1 st.matchedHoa
        matchedExcel := insert p.1 st.matchedExcel }
    | none => st
  else st

/-- Strict precedence used by the final
`sort_values(['Match_Score', 'Match_Type'], ascending=[False, True])`. -/
def rowLt (a b : MatchRow) : Bool :=
  decide (b.score < a.score) ||
    (decide (a.score = b.score) && decide (a.matchType.rank < b.matchType.rank))

/-- The matching pass over an already sorted candidate list (the body of
`match_records` after `sort_values`), parameterised by the scoring oracle,
by per-owner skip sets (the engine itself always passes `fun _ => ∅`; a
nonempty skip set expresses "this pair is excluded from the scan" for the
error-confinement claim) and by the flag-enumeration oracle.  The unmatched
household loop iterates the sorted frame, as the source rebinds `hoa_df` to
the sorted one. -/
def matchRecordsWith (f : ScoreOracle) (skip : Nat → Finset Nat)
    (σf : FlagOrder) (sorted : List (Nat × HouseholdRecord))
    (excel : List ExcelRecord) : List MatchRow :=
  let st := (enumFromL 0 excel).foldl (ownerStep f skip σf sorted) ⟨[], ∅, ∅⟩
  let removed := (enumFromL 0 excel).filterMap
    (fun p => if p.1 ∈ st.matchedExcel then none else some (removedRow p.1 p.2))
  let news := sorted.filterMap
    (fun p => if p.1 ∈ st.matchedHoa then none else some (newRow p.1 p.2))
  sortLt rowLt (st.results ++ removed ++ news)

/-- `match_records` as run by the application: sort the households (the
concrete — implementation-defined — outcome drawn from the sort oracle
`σs`), then run the pass. -/
def match_records (σs : SortOracle) (σf : FlagOrder)
    (excel : List ExcelRecord) (hoa : List HouseholdRecord) : List MatchRow :=
  matchRecordsWith realOracle (fun _ => ∅) σf (σs hoa) excel

/-- The full engine as run by the application: `condense_records` (its set
enumeration drawn from `σe`) followed by `match_records` (its sort outcome
drawn from `σs`, its flag listings from `σf`). -/
def engine (σe : List String → List String) (σs : SortOracle) (σf : FlagOrder)
    (excel : List ExcelRecord) (df : List RawContact) : List MatchRow :=
  match_records σs σf excel (condense_records σe df)

/-! ## The summary reporter (`analyze_matches`) -/

/-- The result of `analyze_matches`: either the literal
"No records to analyze." early return, or the analysis text's numbers
(total, the three counts, and the three percentages). -/
inductive AnalysisResult where
  | noRecords
  | stats (total exact fuzzy noMatch : Nat) (exactPct fuzzyPct noMatchPct : ℚ)
deriving DecidableEq

/-- `analyze_matches` from `hoa_processing.py`. -/
def analyze_matches (df : List MatchRow) : AnalysisResult :=
  if df.length = 0 then .noRecords
  else
    let total := df.length
    let ex := (df.filter (fun r => decide (r.matchType = .exact))).length
    let fz := (df.filter (fun r => decide (r.matchType = .fuzzy))).length
    let nm := (df.filter (fun r => decide (r.matchType = .noMatch))).length
    .stats total ex fz nm ((ex : ℚ) / (total : ℚ) * 100)
      ((fz : ℚ) / (total : ℚ) * 100) ((nm : ℚ) / (total : ℚ) * 100)

/-! ## Specification-side definitions

These definitions restate, in the words of the specification, what the scan
of `match_records` is claimed to compute; the greedy-pass claim is settled
by proving the engine equal to this description. -/

/-- The score a candidate pair contributes: the scorer's result, or 0 when
the comparison fails (a failed pair can never improve the best score). -/
def effScore (f : ScoreOracle) (i : Nat) (e : ExcelRecord)
    (p : Nat × HouseholdRecord) : Nat :=
  match f i p.1 e p.2 with
  | none => 0
  | some r => r.1

/-- A household is eligible for an owner's scan iff it is not yet claimed
(and not explicitly excluded). -/
def eligible (claimed skipSet : Finset Nat) (p : Nat × HouseholdRecord) : Bool :=
  decide (p.1 ∉ claimed) && decide (p.1 ∉ skipSet)

/-- The best-match data carried for a candidate. -/
def bestData (f : ScoreOracle) (i : Nat) (e : ExcelRecord)
    (p : Nat × HouseholdRecord) :
    Option (Nat × HouseholdRecord × MatchDetails × Finset MatchFlags) :=
  (f i p.1 e p.2).map (fun r => (p.1, p.2, r.2.1, r.2.2))

/-- The running maximum candidate score, folded from the starting value `b`:
the specification's "track the maximum score seen so far". -/
def maxFrom (f : ScoreOracle) (i : Nat) (e : ExcelRecord) (b : Nat)
    (l : List (Nat × HouseholdRecord)) : Nat :=
  l.foldl (fun m p => max m (effScore f i e p)) b

/-- The earliest-scanned candidate attaining the score `M`, with its data:
the specification's first-found-wins tie-break. -/
def pickFirst (f : ScoreOracle) (i : Nat) (e : ExcelRecord) (M : Nat)
    (l : List (Nat × HouseholdRecord)) :
    Option (Nat × HouseholdRecord × MatchDetails × Finset MatchFlags) :=
  (l.find? (fun p => decide (effScore f i e p = M))).bind (bestData f i e)

/-- The claimed description of the inner scan: the final best score is the
maximum candidate score over the eligible households (0 when there is none),
and — when that maximum is positive — the winning candidate is the earliest
scanned eligible household attaining it. -/
def specScan (f : ScoreOracle) (i : Nat) (e : ExcelRecord)
    (claimed skipSet : Finset Nat) (l : List (Nat × HouseholdRecord)) : BestInfo :=
  (maxFrom f i e 0 (l.filter (eligible claimed skipSet)),
    if maxFrom f i e 0 (l.filter (eligible claimed skipSet)) = 0 then none
    else pickFirst f i e (maxFrom f i e 0 (l.filter (eligible claimed skipSet)))
      (l.filter (eligible claimed skipSet)))

/-- `ownerStep` with the scan replaced by its claimed description. -/
def specOwnerStep (f : ScoreOracle) (skip : Nat → Finset Nat) (σf : FlagOrder)
    (sorted : List (Nat × HouseholdRecord)) (st : PassState)
    (p : Nat × ExcelRecord) : PassState :=
  if 50 ≤ (specScan f p.1 p.2 st.matchedHoa (skip p.1) sorted).1 then
    match (specScan f p.1 p.2 st.matchedHoa (skip p.1) sorted).2 with
    | some b =>
      { results := st.results ++
          [mkMatchedRow p.1 p.2 b.1 b.2.1
            (specScan f p.1 p.2 st.matchedHoa (skip p.1) sorted).1 b.2.2.1
            (σf b.2.2.2)]
        matchedHoa := insert b.1 st.matchedHoa
        matchedExcel := insert p.1 st.matchedExcel }
    | none => st
  else st

/-- The pass with every owner scan replaced by its claimed description,
over the same sorted candidate list. -/
def specMatchRecords (f : ScoreOracle) (skip : Nat → Finset Nat)
    (σf : FlagOrder) (sorted : List (Nat × HouseholdRecord))
    (excel : List ExcelRecord) : List MatchRow :=
  let st := (enumFromL 0 excel).foldl (specOwnerStep f skip σf sorted) ⟨[], ∅, ∅⟩
  let removed := (enumFromL 0 excel).filterMap
    (fun p => if p.1 ∈ st.matchedExcel then none else some (removedRow p.1 p.2))
  let news := sorted.filterMap
    (fun p => if p.1 ∈ st.matchedHoa then none else some (newRow p.1 p.2))
  sortLt rowLt (st.results ++ removed ++ news)

/-- Number of output rows carrying the owner at input position `i`. -/
def countOwnerRows (l : List MatchRow) (i : Nat) : Nat :=
  l.countP (fun r => decide (r.ownerIdx = some i))

/-- Number of output rows carrying the household at input position `j`. -/
def countHoaRows (l : List MatchRow) (j : Nat) : Nat :=
  l.countP (fun r => decide (r.hoaIdx = some j))

/-- Number of matched rows (score at least 50) carrying household `j`. -/
def countMatchedHoaRows (l : List MatchRow) (j : Nat) : Nat :=
  l.countP (fun r => decide (50 ≤ r.score) && decide (r.hoaIdx = some j))

/-- The per-pass invariant of the greedy pass: each matched owner and each
claimed household owns exactly one emitted row, matched owners lie below the
running counter, claimed households come from the candidate list, and every
emitted row is a genuine match. -/
def StInv (n : Nat) (hoaIdxs : Finset Nat) (st : PassState) : Prop :=
  (∀ i, countOwnerRows st.results i = if i ∈ st.matchedExcel then 1 else 0) ∧
  (∀ j, countHoaRows st.results j = if j ∈ st.matchedHoa then 1 else 0) ∧
  (∀ i ∈ st.matchedExcel, i < n) ∧
  (st.matchedHoa ⊆ hoaIdxs) ∧
  (∀ r ∈ st.results, 50 ≤ r.score)

/-- A condensed record with its email list blanked: what remains of a
condensed record once the set-enumeration-dependent part is removed. -/
def eraseEmails (h : HouseholdRecord) : HouseholdRecord :=
  { h with email := .list [] }

/-- Correspondence of two condensed households across two runs: all fields
equal except the email list, which agrees up to permutation. -/
def hhRel (a b : HouseholdRecord) : Prop :=
  eraseEmails a = eraseEmails b ∧
    ∃ l₁ l₂, a.email = .list l₁ ∧ b.email = .list l₂ ∧ l₁.Perm l₂

/-- A result row with its enumeration-order-dependent parts blanked
(household email field and flag list). -/
def eraseRowOrders (r : MatchRow) : MatchRow :=
  { r with hoaEmail := none
           flags := [] }

/-- Correspondence of two email fields across two runs: equal strings, or
lists agreeing up to permutation. -/
def efRel : EmailField → EmailField → Prop
  | .str s, .str t => s = t
  | .list l, .list m => l.Perm m
  | _, _ => False

/-- `efRel` lifted to the optional email column of a result row. -/
def optEfRel : Option EmailField → Option EmailField → Prop
  | none, none => True
  | some a, some b => efRel a b
  | _, _ => False

/-- Correspondence of two result rows across two runs: all fields equal
except the household email field and the flag list, each agreeing up to
permutation. -/
def rowRel (a b : MatchRow) : Prop :=
  eraseRowOrders a = eraseRowOrders b ∧ optEfRel a.hoaEmail b.hoaEmail ∧
    a.flags.Perm b.flags

/-- Correspondence of two sorted candidate entries across two runs: same
original position, corresponding households. -/
def candRel (p q : Nat × HouseholdRecord) : Prop := p.1 = q.1 ∧ hhRel p.2 q.2

/-- Correspondence of two best-match options across two runs: the claimed
position, the score details and the flag set agree; the household
corresponds. -/
def bestOptRel :
    Option (Nat × HouseholdRecord × MatchDetails × Finset MatchFlags) →
    Option (Nat × HouseholdRecord × MatchDetails × Finset MatchFlags) → Prop
  | none, none => True
  | some b₁, some b₂ => b₁.1 = b₂.1 ∧ hhRel b₁.2.1 b₂.2.1 ∧ b₁.2.2 = b₂.2.2
  | _, _ => False

/-- Correspondence of two pass states across two runs: corresponding result
rows, equal claimed-index sets. -/
def stRel (st₁ st₂ : PassState) : Prop :=
  List.Forall₂ rowRel st₁.results st₂.results ∧
    st₁.matchedHoa = st₂.matchedHoa ∧ st₁.matchedExcel = st₂.matchedExcel

/-- A single-token name: non-empty, holding neither `'&'` nor a space. -/
def isSingleToken (s : String) : Prop :=
  s ≠ "" ∧ hasChar '&' s = false ∧ hasChar ' ' s = false

/-- The count named by the condensation claim: distinct non-empty
(and non-NaN) first names of a group. -/
def distinctNonEmptyFirstNames (g : List RawContact) : Nat :=
  (((g.filterMap (fun r => r.firstName)).filter (fun s => decide (s ≠ ""))).toFinset).card

/-! ## Concrete fixtures used by counterexamples and witnesses -/

/-- A household record with all fields blank (base fixture). -/
def blankHousehold : HouseholdRecord :=
  { firstName := "", lastName := "", email := .list [], propertyStreet := "",
    propertyCity := "", propertyStateZip := "", fullPropertyAddress := "",
    mailingStreet := "", mailingCity := "", mailingStateZip := "",
    fullMailingAddress := "", isCompany := false, numUniquePeople := 1,
    numUniqueEmails := 0 }

/-- An owner record with all fields blank (base fixture). -/
def blankOwner : ExcelRecord :=
  { firstName := "", lastName := "", email := "", street := "", city := "",
    stateZip := "" }

/-- Owner for the name-swap counterexample: single-token last name. -/
def cexOwner5 : ExcelRecord := { blankOwner with firstName := "Al", lastName := "abcdefghij" }

/-- Household for the name-swap counterexample: its first name has fuzzy
ratio exactly 90 against the owner's last name (18 common characters out of
20), its last name is entirely different. -/
def cexHousehold5 : HouseholdRecord :=
  { blankHousehold with firstName := "abcdefghix", lastName := "q" }

/-- Household whose full mailing address is the empty string (falsy). -/
def cexHouseholdBlankAddr : HouseholdRecord := blankHousehold

/-- Household whose full mailing address is `","`: truthy, but it normalizes
to the empty string. -/
def witHouseholdComma : HouseholdRecord := { blankHousehold with fullMailingAddress := "," }

/-- Household whose first name equals the owner's last name exactly
(fuzzy ratio 100). -/
def witHousehold5 : HouseholdRecord :=
  { blankHousehold with firstName := "abcdefghij", lastName := "q" }

/-- A raw contact with the given first name, last name, email and property
address; all other fields blank. -/
def mkRaw (f ln em : Option String) (addr : String) : RawContact :=
  { firstName := f, lastName := ln, email := em, propertyStreet := "",
    propertyCity := "", propertyStateZip := "", fullPropertyAddress := addr,
    mailingStreet := "", mailingCity := "", mailingStateZip := "",
    fullMailingAddress := "", isCompany := false }

/-- Condensation counterexample batch: one group whose first names are
`""` and `"J"` (one distinct non-empty name, but two distinct non-NaN
values), and one group whose first names are both NaN. -/
def cexBatch4 : List RawContact :=
  [mkRaw (some "") (some "a") none "x", mkRaw (some "J") (some "a") none "x",
   mkRaw none (some "b") none "x", mkRaw none (some "b") none "x"]

/-- Determinism counterexample batch: one group holding two distinct
emails. -/
def cexBatch6 : List RawContact :=
  [mkRaw (some "A") (some "a") (some "p@x") "x",
   mkRaw (some "B") (some "a") (some "q@x") "x"]

/-- The reversing set-enumeration oracle: also valid, but enumerates the
distinct elements in the opposite order. -/
def revOrder (xs : List String) : List String := xs.dedup.reverse

/-- Owner fixture for a perfect match (the specification's Scenario A). -/
def witOwnerA : ExcelRecord :=
  { firstName := "John", lastName := "Doe", email := "john@x.com",
    street := "123 Main St", city := "Springfield", stateZip := "IL 62704" }

/-- Household fixture matching `witOwnerA` exactly. -/
def witHouseholdA : HouseholdRecord :=
  { blankHousehold with
    firstName := "John"
    lastName := "Doe"
    email := .list ["john@x.com"]
    mailingStreet := "123 Main St"
    mailingCity := "Springfield"
    mailingStateZip := "IL 62704"
    fullMailingAddress := "123 Main St\nSpringfield, IL 62704"
    numUniqueEmails := 1 }

/-- A scoring oracle that fails on the pair of input positions (0, 0) and
behaves as the real scorer elsewhere. -/
def failOracle : ScoreOracle := fun i j e h =>
  if i = 0 ∧ j = 0 then none else some (calculate_match_score e h)

/-! ## Supporting lemmas -/

theorem data_append (s t : String) : (s ++ t).data = s.data ++ t.data := by
  cases s
  cases t
  rfl

theorem string_ne_empty_iff (l : List Char) : (⟨l⟩ : String) ≠ "" ↔ l ≠ [] := by
  rw [not_iff_not, String.ext_iff]

theorem ratioGe_iff (t : Nat) (a b : String) :
    ratioGe t a b = true ↔ (t : ℚ) ≤ fuzzRatio a b := by
  unfold ratioGe fuzzRatio
  by_cases h : a.data.length + b.data.length = 0
  · simp only [if_pos h, decide_eq_true_eq]
    constructor
    · intro ht
      exact_mod_cast ht
    · intro ht
      exact_mod_cast ht
  · have hS : (0 : ℚ) < (a.data.length : ℚ) + (b.data.length : ℚ) := by
      have := Nat.pos_of_ne_zero h
      exact_mod_cast this
    simp only [if_neg h, decide_eq_true_eq]
    rw [le_div_iff₀ hS]
    constructor
    · intro ht
      exact_mod_cast ht
    · intro ht
      exact_mod_cast ht

theorem ratioGt_iff (t : Nat) (a b : String) :
    ratioGt t a b = true ↔ (t : ℚ) < fuzzRatio a b := by
  unfold ratioGt fuzzRatio
  by_cases h : a.data.length + b.data.length = 0
  · simp only [if_pos h, decide_eq_true_eq]
    constructor
    · intro ht
      exact_mod_cast ht
    · intro ht
      exact_mod_cast ht
  · have hS : (0 : ℚ) < (a.data.length : ℚ) + (b.data.length : ℚ) := by
      have := Nat.pos_of_ne_zero h
      exact_mod_cast this
    simp only [if_neg h, decide_eq_true_eq]
    rw [lt_div_iff₀ hS]
    constructor
    · intro ht
      exact_mod_cast ht
    · intro ht
      exact_mod_cast ht

theorem ratioLt_iff (t : Nat) (a b : String) :
    ratioLt t a b = true ↔ fuzzRatio a b < (t : ℚ) := by
  unfold ratioLt fuzzRatio
  by_cases h : a.data.length + b.data.length = 0
  · simp only [if_pos h, decide_eq_true_eq]
    constructor
    · intro ht
      exact_mod_cast ht
    · intro ht
      exact_mod_cast ht
  · have hS : (0 : ℚ) < (a.data.length : ℚ) + (b.data.length : ℚ) := by
      have := Nat.pos_of_ne_zero h
      exact_mod_cast this
    simp only [if_neg h, decide_eq_true_eq]
    rw [div_lt_iff₀ hS]
    constructor
    · intro ht
      exact_mod_cast ht
    · intro ht
      exact_mod_cast ht

theorem lcsFuel_self : ∀ (f : Nat) (l : List Char), l.length ≤ f →
    lcsFuel f l l = l.length := by
  intro f
  induction f with
  | zero =>
    intro l hl
    have : l = [] := List.length_eq_zero.mp (Nat.le_zero.mp hl)
    subst this
    rfl
  | succ f ih =>
    intro l hl
    cases l with
    | nil => rfl
    | cons a as =>
      simp only [lcsFuel, if_pos rfl]
      rw [ih as (by simpa using Nat.le_of_succ_le_succ hl)]
      rfl

theorem lcsLen_self (l : List Char) : lcsLen l l = l.length :=
  lcsFuel_self _ _ (Nat.le_add_right _ _)

theorem fuzzRatio_self (s : String) : fuzzRatio s s = 100 := by
  unfold fuzzRatio
  by_cases h : s.data.length = 0
  · rw [if_pos (by omega)]
  · rw [if_neg (by omega), lcsLen_self]
    have hq : ((s.data.length : ℚ)) ≠ 0 := by exact_mod_cast h
    rw [div_eq_iff (by rw [← two_mul]; positivity)]
    ring

theorem memberFlags_no_swap (a b : String) :
    MatchFlags.NAME_ORDER_SWAP ∉ memberFlagsOf a b ∧
    MatchFlags.NAME_MISMATCH ∉ memberFlagsOf a b := by
  unfold memberFlagsOf
  split_ifs <;> simp_all [Finset.mem_union] <;> split_ifs <;> simp_all

theorem comma_mem_addr (e : ExcelRecord) : ',' ∈ (excelFullAddr e).data := by
  unfold excelFullAddr
  simp only [data_append, List.mem_append]
  left
  right
  simp

theorem mem_dropWhile_of_mem {p : Char → Bool} {c : Char} :
    ∀ {l : List Char}, c ∈ l → p c = false → c ∈ l.dropWhile p := by
  intro l
  induction l with
  | nil => intro h; simp at h
  | cons x xs ih =>
    intro hmem hpc
    by_cases hx : p x = true
    · rw [List.dropWhile_cons_of_pos hx]
      rcases List.mem_cons.mp hmem with rfl | hxs
      · rw [hx] at hpc; cases hpc
      · exact ih hxs hpc
    · rw [List.dropWhile_cons_of_neg hx]
      exact hmem

theorem mem_stripChars {c : Char} {l : List Char} (hmem : c ∈ l)
    (hw : isWsChar c = false) : c ∈ stripChars l := by
  unfold stripChars
  rw [List.mem_reverse]
  apply mem_dropWhile_of_mem _ hw
  rw [List.mem_reverse]
  exact mem_dropWhile_of_mem hmem hw

theorem strip_addr_ne_empty (e : ExcelRecord) :
    pyStrip (excelFullAddr e) ≠ "" := by
  unfold pyStrip
  rw [string_ne_empty_iff]
  exact List.ne_nil_of_mem (mem_stripChars (comma_mem_addr e) (by decide))

theorem addr_ne_empty (e : ExcelRecord) : excelFullAddr e ≠ "" := by
  intro hc
  have h2 := comma_mem_addr e
  rw [hc] at h2
  exact absurd h2 (by decide)

/-! ## Claim theorems -/

/-- C1: for every (owner, household) pair, `calculate_match_score` returns a
score with `0 ≤ score ≤ 100` (the score is a natural number, so the lower
bound is inherent) that equals the sum of the triggered weights 50 (email),
35 (last name) and 15 (address), and a score of 100 forces all three
returned match booleans to be true. -/
theorem score_range_sum_and_full_score (e : ExcelRecord) (h : HouseholdRecord) :
    (calculate_match_score e h).1 ≤ 100 ∧
    (calculate_match_score e h).1 =
      (if (calculate_match_score e h).2.1.email_match then 50 else 0) +
      (if (calculate_match_score e h).2.1.last_name_match then 35 else 0) +
      (if (calculate_match_score e h).2.1.address_match then 15 else 0) ∧
    ((calculate_match_score e h).1 = 100 →
      (calculate_match_score e h).2.1.email_match = true ∧
      (calculate_match_score e h).2.1.last_name_match = true ∧
      (calculate_match_score e h).2.1.address_match = true) := by
  cases hE : emailScoreHit e h <;> cases hL : lastNameScoreHit e h <;>
    cases hA : addressScoreHit e h <;>
      simp [calculate_match_score, hE, hL, hA]

/-- C8: `analyze_matches` of an empty result set is the non-error
"No records to analyze." result, and on a non-empty result set it reports
the total count together with count and percentage of Exact, Fuzzy and
No Match rows. -/
theorem analyze_matches_empty_and_counts :
    analyze_matches [] = AnalysisResult.noRecords ∧
    ∀ df : List MatchRow, df ≠ [] →
      analyze_matches df = .stats df.length
        (df.countP (fun r => decide (r.matchType = .exact)))
        (df.countP (fun r => decide (r.matchType = .fuzzy)))
        (df.countP (fun r => decide (r.matchType = .noMatch)))
        ((df.countP (fun r => decide (r.matchType = .exact)) : ℚ) / df.length * 100)
        ((df.countP (fun r => decide (r.matchType = .fuzzy)) : ℚ) / df.length * 100)
        ((df.countP (fun r => decide (r.matchType = .noMatch)) : ℚ) / df.length * 100) := by
  constructor
  · rfl
  · intro df hdf
    have hlen : df.length ≠ 0 := by simpa using hdf
    simp [analyze_matches, hlen, List.countP_eq_length_filter]

/-- Witness for C8: a one-row result set is reported as one row, no Exact,
no Fuzzy, one No Match. -/
theorem analyze_matches_counts_witness :
    ([removedRow 0 blankOwner] : List MatchRow) ≠ [] ∧
    analyze_matches [removedRow 0 blankOwner] =
      .stats 1 0 0 1 ((0 : ℚ) / 1 * 100) ((0 : ℚ) / 1 * 100) ((1 : ℚ) / 1 * 100) := by
  refine ⟨List.cons_ne_nil _ _, ?_⟩
  have h := analyze_matches_empty_and_counts.2 [removedRow 0 blankOwner]
    (List.cons_ne_nil _ _)
  simpa [removedRow] using h

/-- C10: `evaluate_email_flags` wraps a string household email into a
one-element list, so an empty-string household email counts as non-empty:
with an empty owner email the flag set is empty (no NO_EMAILS), with a
non-empty owner email EMAIL_CHECK_NEEDED is raised rather than
EMAIL_PRESERVED, and NO_EMAILS can only arise when the converted household
email collection is empty. -/
theorem email_flags_string_wrapping :
    evaluate_email_flags "" (.str "") = ∅ ∧
    (∀ ex, ex ≠ "" →
      evaluate_email_flags ex (.str "") = {MatchFlags.EMAIL_CHECK_NEEDED}) ∧
    (∀ ex he, MatchFlags.NO_EMAILS ∈ evaluate_email_flags ex he →
      ex = "" ∧ he.toList = []) := by
  refine ⟨by decide, ?_, ?_⟩
  · intro ex hex
    simp [evaluate_email_flags, EmailField.toList, hex]
  · intro ex he hmem
    simp only [evaluate_email_flags] at hmem
    split_ifs at hmem <;> simp_all

/-- Witness for C10: a concrete non-empty owner email against a string
household email `""`. -/
theorem email_flags_string_wrapping_witness :
    ("a@b" : String) ≠ "" ∧
    evaluate_email_flags "a@b" (.str "") = {MatchFlags.EMAIL_CHECK_NEEDED} := by
  refine ⟨by decide, ?_⟩
  exact email_flags_string_wrapping.2.1 "a@b" (by decide)

/-- Counterexample to C5 as stated: a pair of single-token last names with
lowercased last-name ratio below 90 and owner-last-name-to-household-
first-name ratio exactly 90 — which is ≥ 90 — yet the flag set holds
NAME_MISMATCH and not NAME_ORDER_SWAP, because the code requires a ratio
strictly above 90 for the swap flag. -/
theorem name_swap_boundary_cex :
    isSingleToken cexOwner5.lastName ∧
    isSingleToken cexHousehold5.lastName ∧
    cexHousehold5.isCompany = false ∧
    fuzzRatio (pyLower cexOwner5.lastName) (pyLower cexHousehold5.lastName) < 90 ∧
    90 ≤ fuzzRatio (pyLower cexOwner5.lastName) (pyLower cexHousehold5.firstName) ∧
    fuzzRatio (pyLower cexOwner5.lastName) (pyLower cexHousehold5.firstName) = 90 ∧
    MatchFlags.NAME_ORDER_SWAP ∉ evaluate_name_flags cexOwner5 cexHousehold5 ∧
    MatchFlags.NAME_MISMATCH ∈ evaluate_name_flags cexOwner5 cexHousehold5 := by
  refine ⟨by constructor <;> decide, by constructor <;> decide, by decide, ?_, ?_, ?_,
    by decide, by decide⟩
  · have hx := (ratioLt_iff 90 (pyLower cexOwner5.lastName)
      (pyLower cexHousehold5.lastName)).mp (by decide)
    exact_mod_cast hx
  · have hx := (ratioGe_iff 90 (pyLower cexOwner5.lastName)
      (pyLower cexHousehold5.firstName)).mp (by decide)
    exact_mod_cast hx
  · have hge := (ratioGe_iff 90 (pyLower cexOwner5.lastName)
      (pyLower cexHousehold5.firstName)).mp (by decide)
    have hngt : ¬ ratioGt 90 (pyLower cexOwner5.lastName)
        (pyLower cexHousehold5.firstName) = true := by decide
    rw [ratioGt_iff] at hngt
    have hle := not_lt.mp hngt
    have := le_antisymm hle hge
    exact_mod_cast this

/-- C5 amended: for every pair where the household is not a company record,
both last names are single tokens, and the lowercased last-name ratio is
below 90, the flag set holds NAME_ORDER_SWAP (and not NAME_MISMATCH) iff the
ratio of the owner's last name against the household's first name is
STRICTLY above 90, and otherwise holds NAME_MISMATCH (and not
NAME_ORDER_SWAP). -/
theorem name_swap_strict_threshold (e : ExcelRecord) (h : HouseholdRecord)
    (hco : h.isCompany = false)
    (hs1 : isSingleToken e.lastName) (hs2 : isSingleToken h.lastName)
    (hlow : fuzzRatio (pyLower e.lastName) (pyLower h.lastName) < 90) :
    (90 < fuzzRatio (pyLower e.lastName) (pyLower h.firstName) →
      MatchFlags.NAME_ORDER_SWAP ∈ evaluate_name_flags e h ∧
      MatchFlags.NAME_MISMATCH ∉ evaluate_name_flags e h) ∧
    (fuzzRatio (pyLower e.lastName) (pyLower h.firstName) ≤ 90 →
      MatchFlags.NAME_MISMATCH ∈ evaluate_name_flags e h ∧
      MatchFlags.NAME_ORDER_SWAP ∉ evaluate_name_flags e h) := by
  have hblock : evaluate_name_flags e h =
      memberFlagsOf (pyStrip (e.firstName ++ " " ++ e.lastName))
        (pyStrip (h.firstName ++ " " ++ h.lastName)) ∪ lastNameFlagsOf e h := by
    unfold evaluate_name_flags
    rw [hco]
    simp
  have hlt : ratioLt 90 (pyLower e.lastName) (pyLower h.lastName) = true := by
    rw [ratioLt_iff]
    exact_mod_cast hlow
  have hcond : e.lastName ≠ "" ∧ h.lastName ≠ "" := ⟨hs1.1, hs2.1⟩
  have hname : lastNameFlagsOf e h =
      (if ratioGt 90 (pyLower e.lastName) (pyLower h.firstName)
       then {MatchFlags.NAME_ORDER_SWAP} else {MatchFlags.NAME_MISMATCH}) := by
    unfold lastNameFlagsOf
    rw [if_pos hcond, if_pos hlt]
  have hmem := memberFlags_no_swap (pyStrip (e.firstName ++ " " ++ e.lastName))
    (pyStrip (h.firstName ++ " " ++ h.lastName))
  constructor
  · intro hgt
    have hg : ratioGt 90 (pyLower e.lastName) (pyLower h.firstName) = true := by
      rw [ratioGt_iff]
      exact_mod_cast hgt
    rw [hblock, hname, if_pos hg]
    constructor
    · exact Finset.mem_union_right _ (Finset.mem_singleton_self _)
    · simp [Finset.mem_union, hmem.2]
  · intro hle
    have hg : ¬ ratioGt 90 (pyLower e.lastName) (pyLower h.firstName) = true := by
      rw [ratioGt_iff]
      push_cast
      exact not_lt.mpr hle
    rw [hblock, hname, if_neg hg]
    constructor
    · exact Finset.mem_union_right _ (Finset.mem_singleton_self _)
    · simp [Finset.mem_union, hmem.1]

/-- Witness for the amended C5: a household first name equal to the owner's
last name (ratio 100, strictly above 90) produces NAME_ORDER_SWAP. -/
theorem name_swap_strict_threshold_witness :
    MatchFlags.NAME_ORDER_SWAP ∈ evaluate_name_flags cexOwner5 witHousehold5 := by
  have h := name_swap_strict_threshold cexOwner5 witHousehold5
    (by decide) (by constructor <;> decide) (by constructor <;> decide)
    (by
      have hx := (ratioLt_iff 90 (pyLower cexOwner5.lastName)
        (pyLower witHousehold5.lastName)).mp (by decide)
      exact_mod_cast hx)
  refine (h.1 ?_).1
  have hx := (ratioGt_iff 90 (pyLower cexOwner5.lastName)
    (pyLower witHousehold5.firstName)).mp (by decide)
  exact_mod_cast hx

/-- Counterexample to C9 as stated: with an all-blank owner and a household
whose Full Mailing Address is the empty string, both sides normalize to the
empty string — fuzzy ratio 100, which is at least 90 — yet the +15 address
component is NOT awarded, because the empty household address string is falsy
and the scorer's address branch is skipped. -/
theorem address_empty_string_cex :
    normalize_address (excelFullAddr blankOwner) = "" ∧
    normalize_address cexHouseholdBlankAddr.fullMailingAddress = "" ∧
    (90 : ℚ) ≤ fuzzRatio (normalize_address (excelFullAddr blankOwner))
      (normalize_address cexHouseholdBlankAddr.fullMailingAddress) ∧
    (calculate_match_score blankOwner cexHouseholdBlankAddr).2.1.address_match = false ∧
    (calculate_match_score blankOwner cexHouseholdBlankAddr).1 = 0 := by
  have h1 : normalize_address (excelFullAddr blankOwner) = "" := by decide
  have h2 : normalize_address cexHouseholdBlankAddr.fullMailingAddress = "" := by decide
  refine ⟨h1, h2, ?_, by decide, by decide⟩
  rw [h1, h2, fuzzRatio_self]
  norm_num

/-- C9 amended: the owner full address `"{street}\n{city}, {stateZip}"` always
holds a comma, so it is never blank after stripping; hence the blank-address
skip in the address-flag analysis triggers exactly on a blank household Full
Mailing Address; the fuzzy ratio of two equal strings is 100; and the +15
address component (with `address_match = true`) is awarded whenever the
household Full Mailing Address is a NON-EMPTY string and the two normalized
addresses have fuzzy ratio at least 90 — in particular when both normalize
to the empty string. -/
theorem address_score_guard (e : ExcelRecord) (h : HouseholdRecord) :
    pyStrip (excelFullAddr e) ≠ "" ∧
    ((pyStrip (excelFullAddr e) = "" ∨ pyStrip h.fullMailingAddress = "") ↔
      pyStrip h.fullMailingAddress = "") ∧
    (∀ s : String, fuzzRatio s s = 100) ∧
    (h.fullMailingAddress ≠ "" →
      (90 : ℚ) ≤ fuzzRatio (normalize_address (excelFullAddr e))
        (normalize_address h.fullMailingAddress) →
      (calculate_match_score e h).2.1.address_match = true ∧
      15 ≤ (calculate_match_score e h).1) := by
  refine ⟨strip_addr_ne_empty e, ?_, fuzzRatio_self, ?_⟩
  · constructor
    · rintro (hb | hb)
      · exact absurd hb (strip_addr_ne_empty e)
      · exact hb
    · exact Or.inr
  · intro hne hge
    have hhit : addressScoreHit e h = true := by
      unfold addressScoreHit
      rw [Bool.and_eq_true, Bool.and_eq_true]
      refine ⟨⟨?_, ?_⟩, ?_⟩
      · simp [addr_ne_empty e]
      · simp [hne]
      · rw [ratioGe_iff]
        exact_mod_cast hge
    constructor
    · simp [calculate_match_score, hhit]
    · simp only [calculate_match_score, hhit, if_true]
      split_ifs <;> omega

/-- Witness for the amended C9: a household address `","` is truthy, both
sides normalize to the empty string, and the +15 component is awarded. -/
theorem address_score_guard_witness :
    witHouseholdComma.fullMailingAddress ≠ "" ∧
    (calculate_match_score blankOwner witHouseholdComma).2.1.address_match = true ∧
    15 ≤ (calculate_match_score blankOwner witHouseholdComma).1 := by
  refine ⟨by decide, ?_⟩
  have hra : (90 : ℚ) ≤ fuzzRatio (normalize_address (excelFullAddr blankOwner))
      (normalize_address witHouseholdComma.fullMailingAddress) := by
    have h1 : normalize_address (excelFullAddr blankOwner) = "" := by decide
    have h2 : normalize_address witHouseholdComma.fullMailingAddress = "" := by decide
    rw [h1, h2, fuzzRatio_self]
    norm_num
  exact (address_score_guard blankOwner witHouseholdComma).2.2.2 (by decide) hra

/-! ## Condensation lemmas -/

theorem keysFuel_congr : ∀ (f₁ f₂ : Nat) (l : List RawContact),
    l.length ≤ f₁ → l.length ≤ f₂ → keysFuel f₁ l = keysFuel f₂ l := by
  intro f₁
  induction f₁ with
  | zero =>
    intro f₂ l h1 _
    have : l = [] := List.length_eq_zero.mp (Nat.le_zero.mp h1)
    subst this
    cases f₂ <;> rfl
  | succ f ih =>
    intro f₂ l h1 h2
    cases l with
    | nil => cases f₂ <;> rfl
    | cons r rest =>
      cases f₂ with
      | zero => simp at h2
      | succ g =>
        simp only [keysFuel, List.cons.injEq, true_and]
        apply ih
        · exact le_trans (List.length_filter_le _ _)
            (Nat.le_of_succ_le_succ (by simpa using h1))
        · exact le_trans (List.length_filter_le _ _)
            (Nat.le_of_succ_le_succ (by simpa using h2))

theorem keysInOrder_cons (r : RawContact) (rest : List RawContact) :
    keysInOrder (r :: rest) =
      groupKey r ::
        keysInOrder (rest.filter (fun x => decide (groupKey x ≠ groupKey r))) := by
  unfold keysInOrder
  simp only [List.length_cons, keysFuel, List.cons.injEq, true_and]
  exact keysFuel_congr _ _ _ (List.length_filter_le _ _) le_rfl

theorem mem_keysInOrder_aux : ∀ (n : Nat) (df : List RawContact), df.length ≤ n →
    ∀ k, (k ∈ keysInOrder df ↔ ∃ r ∈ df, groupKey r = k) := by
  intro n
  induction n with
  | zero =>
    intro df h k
    have : df = [] := List.length_eq_zero.mp (Nat.le_zero.mp h)
    subst this
    simp [keysInOrder, keysFuel]
  | succ n ih =>
    intro df h k
    cases df with
    | nil => simp [keysInOrder, keysFuel]
    | cons r rest =>
      have hlen : (rest.filter (fun x => decide (groupKey x ≠ groupKey r))).length ≤ n :=
        le_trans (List.length_filter_le _ _) (Nat.le_of_succ_le_succ (by simpa using h))
      rw [keysInOrder_cons]
      simp only [List.mem_cons]
      constructor
      · rintro (rfl | hk)
        · exact ⟨r, Or.inl rfl, rfl⟩
        · obtain ⟨x, hx, hgx⟩ := (ih _ hlen _).mp hk
          exact ⟨x, Or.inr (List.mem_filter.mp hx).1, hgx⟩
      · rintro ⟨x, hx, hgx⟩
        rcases hx with rfl | hxr
        · exact Or.inl hgx.symm
        · by_cases hcase : groupKey x = groupKey r
          · left
            rw [← hgx]
            exact hcase
          · right
            exact (ih _ hlen _).mpr
              ⟨x, List.mem_filter.mpr ⟨hxr, by simpa using hcase⟩, hgx⟩

theorem mem_keysInOrder (df : List RawContact) (k : String) :
    k ∈ keysInOrder df ↔ ∃ r ∈ df, groupKey r = k :=
  mem_keysInOrder_aux df.length df le_rfl k

theorem nodup_keysInOrder_aux : ∀ (n : Nat) (df : List RawContact), df.length ≤ n →
    (keysInOrder df).Nodup := by
  intro n
  induction n with
  | zero =>
    intro df h
    have : df = [] := List.length_eq_zero.mp (Nat.le_zero.mp h)
    subst this
    simp [keysInOrder, keysFuel]
  | succ n ih =>
    intro df h
    cases df with
    | nil => simp [keysInOrder, keysFuel]
    | cons r rest =>
      have hlen : (rest.filter (fun x => decide (groupKey x ≠ groupKey r))).length ≤ n :=
        le_trans (List.length_filter_le _ _) (Nat.le_of_succ_le_succ (by simpa using h))
      rw [keysInOrder_cons]
      refine List.nodup_cons.mpr ⟨?_, ih _ hlen⟩
      intro hmem
      obtain ⟨x, hx, hgx⟩ := (mem_keysInOrder_aux n _ hlen _).mp hmem
      have := (List.mem_filter.mp hx).2
      simp only [decide_eq_true_eq] at this
      exact this hgx

theorem nodup_keysInOrder (df : List RawContact) : (keysInOrder df).Nodup :=
  nodup_keysInOrder_aux df.length df le_rfl

theorem uniqueFuel_congr : ∀ (f₁ f₂ : Nat) (l : List String),
    l.length ≤ f₁ → l.length ≤ f₂ → uniqueFuel f₁ l = uniqueFuel f₂ l := by
  intro f₁
  induction f₁ with
  | zero =>
    intro f₂ l h1 _
    have : l = [] := List.length_eq_zero.mp (Nat.le_zero.mp h1)
    subst this
    cases f₂ <;> rfl
  | succ f ih =>
    intro f₂ l h1 h2
    cases l with
    | nil => cases f₂ <;> rfl
    | cons x xs =>
      cases f₂ with
      | zero => simp at h2
      | succ g =>
        simp only [uniqueFuel, List.cons.injEq, true_and]
        apply ih
        · exact le_trans (List.length_filter_le _ _)
            (Nat.le_of_succ_le_succ (by simpa using h1))
        · exact le_trans (List.length_filter_le _ _)
            (Nat.le_of_succ_le_succ (by simpa using h2))

theorem uniqueFirst_cons (x : String) (xs : List String) :
    uniqueFirst (x :: xs) =
      x :: uniqueFirst (xs.filter (fun y => decide (y ≠ x))) := by
  unfold uniqueFirst
  simp only [List.length_cons, uniqueFuel, List.cons.injEq, true_and]
  exact uniqueFuel_congr _ _ _ (List.length_filter_le _ _) le_rfl

theorem uniqueFirst_length_aux : ∀ (n : Nat) (l : List String), l.length ≤ n →
    (uniqueFirst l).length = l.toFinset.card := by
  intro n
  induction n with
  | zero =>
    intro l h
    have : l = [] := List.length_eq_zero.mp (Nat.le_zero.mp h)
    subst this
    rfl
  | succ n ih =>
    intro l h
    cases l with
    | nil => rfl
    | cons x xs =>
      have hlen : (xs.filter (fun y => decide (y ≠ x))).length ≤ n :=
        le_trans (List.length_filter_le _ _) (Nat.le_of_succ_le_succ (by simpa using h))
      rw [uniqueFirst_cons]
      simp only [List.length_cons, ih _ hlen]
      have hF : (xs.filter (fun y => decide (y ≠ x))).toFinset = xs.toFinset.erase x := by
        ext y
        simp [List.mem_filter, Finset.mem_erase, and_comm]
      rw [hF, List.toFinset_cons]
      by_cases hx : x ∈ xs.toFinset
      · rw [Finset.insert_eq_self.mpr hx, Finset.card_erase_of_mem hx]
        have hpos : 1 ≤ xs.toFinset.card := Finset.card_pos.mpr ⟨x, hx⟩
        omega
      · rw [Finset.erase_eq_of_not_mem hx, Finset.card_insert_of_not_mem hx]

theorem uniqueFirst_length (l : List String) :
    (uniqueFirst l).length = l.toFinset.card :=
  uniqueFirst_length_aux l.length l le_rfl

theorem uniqueFirst_eq_nil_iff (l : List String) : uniqueFirst l = [] ↔ l = [] := by
  cases l with
  | nil => simp [uniqueFirst, uniqueFuel]
  | cons x xs =>
    rw [uniqueFirst_cons]
    simp

/-- Counterexample to C4 as stated: in `cexBatch4` the group with key
`"a|x"` has first names `""` and `"J"` — one distinct non-empty first name —
yet its occupant count is 2, because the code counts distinct non-NaN values
including the empty string; and the group with key `"b|x"` (both first names
NaN) gets occupant count 0, violating `occupant_count ≥ 1`. -/
theorem condense_occupant_cex :
    EmailOrderValid List.dedup ∧
    keysInOrder cexBatch4 = ["a|x", "b|x"] ∧
    (condense_records List.dedup cexBatch4).map (fun r => r.numUniquePeople) = [2, 0] ∧
    distinctNonEmptyFirstNames (groupOf cexBatch4 "a|x") = 1 ∧
    distinctNonEmptyFirstNames (groupOf cexBatch4 "b|x") = 0 :=
  ⟨fun _ => List.Perm.refl _, by decide, by decide, by decide, by decide⟩

/-- C4 amended: every batch condenses to exactly one HouseholdRecord per
distinct group key (the key list is duplicate-free and the output is its
image); a single-contact group gets occupant count 1; a multi-contact group
gets occupant count equal to the number of distinct non-NaN first names —
EMPTY STRINGS INCLUDED — in the group (so the count is 0, not ≥ 1, exactly
for a multi-contact group whose first names are all NaN); and every record's
email count equals the length of its duplicate-free email list. -/
theorem condensation_per_group (σ : List String → List String)
    (hσ : EmailOrderValid σ) (df : List RawContact) :
    (keysInOrder df).Nodup ∧
    condense_records σ df = (keysInOrder df).map (fun k =>
      match groupOf df k with
      | [] => emptyHousehold
      | r :: rest => condenseGroup σ r rest) ∧
    (∀ k ∈ keysInOrder df, groupOf df k ≠ []) ∧
    (∀ k ∈ keysInOrder df, ∀ r rest, groupOf df k = r :: rest →
      condenseGroup σ r rest ∈ condense_records σ df ∧
      (rest = [] → (condenseGroup σ r rest).numUniquePeople = 1) ∧
      (rest ≠ [] → (condenseGroup σ r rest).numUniquePeople =
        ((r :: rest).filterMap (fun x => x.firstName)).toFinset.card) ∧
      (∃ l, (condenseGroup σ r rest).email = .list l ∧
        (condenseGroup σ r rest).numUniqueEmails = l.length ∧ l.Nodup) ∧
      ((condenseGroup σ r rest).numUniquePeople = 0 ↔
        rest ≠ [] ∧ ∀ x ∈ r :: rest, x.firstName = none)) := by
  refine ⟨nodup_keysInOrder df, rfl, ?_, ?_⟩
  · intro k hk
    obtain ⟨r, hr, hgr⟩ := (mem_keysInOrder df k).mp hk
    intro hnil
    have : r ∈ groupOf df k := List.mem_filter.mpr ⟨hr, by simpa using hgr⟩
    rw [hnil] at this
    simp at this
  · intro k hk r rest hgroup
    refine ⟨?_, ?_, ?_, ?_, ?_⟩
    · unfold condense_records
      exact List.mem_map.mpr ⟨k, hk, by rw [hgroup]⟩
    · intro hrest
      subst hrest
      rfl
    · intro hrest
      unfold condenseGroup
      rw [if_neg hrest]
      unfold condenseMulti
      simpa using uniqueFirst_length _
    · unfold condenseGroup
      by_cases hrest : rest = []
      · subst hrest
        rw [if_pos rfl]
        unfold condenseSingle
        cases hre : r.email with
        | none => exact ⟨[], rfl, rfl, List.nodup_nil⟩
        | some m =>
          by_cases hm : m ≠ ""
          · exact ⟨[m], by simp [hre, hm], by simp [hre, hm], List.nodup_singleton m⟩
          · exact ⟨[], by simp [hre, hm], by simp [hre, hm], List.nodup_nil⟩
      · rw [if_neg hrest]
        unfold condenseMulti
        refine ⟨_, rfl, rfl, ?_⟩
        exact ((hσ _).nodup_iff).mpr (List.nodup_dedup _)
    · unfold condenseGroup
      by_cases hrest : rest = []
      · subst hrest
        rw [if_pos rfl]
        unfold condenseSingle
        simp
      · rw [if_neg hrest]
        unfold condenseMulti
        simp only [hrest, ne_eq, not_false_iff, true_and]
        rw [List.length_eq_zero, uniqueFirst_eq_nil_iff, List.filterMap_eq_nil_iff]

/-- Witness for the amended C4: the canonical `List.dedup` enumeration is a
valid set order, and the two-contact batch `cexBatch6` has duplicate-free
group keys. -/
theorem condensation_per_group_witness :
    EmailOrderValid List.dedup ∧ (keysInOrder cexBatch6).Nodup :=
  ⟨fun _ => List.Perm.refl _,
    (condensation_per_group List.dedup (fun _ => List.Perm.refl _) cexBatch6).1⟩

/-- Two runs of the condenser, whatever enumeration orders their Python
sets produce, agree row by row up to email-list permutation. -/
theorem condense_hhRel (σ₁ σ₂ : List String → List String)
    (h₁ : EmailOrderValid σ₁) (h₂ : EmailOrderValid σ₂) (df : List RawContact) :
    List.Forall₂ hhRel (condense_records σ₁ df) (condense_records σ₂ df) := by
  have hpair : ∀ (r : RawContact) (rest : List RawContact),
      eraseEmails (condenseGroup σ₁ r rest) = eraseEmails (condenseGroup σ₂ r rest) ∧
      ∃ l₁ l₂, (condenseGroup σ₁ r rest).email = .list l₁ ∧
        (condenseGroup σ₂ r rest).email = .list l₂ ∧ l₁.Perm l₂ := by
    intro r rest
    unfold condenseGroup
    by_cases hrest : rest = []
    · rw [if_pos hrest, if_pos hrest]
      exact ⟨rfl, _, _, rfl, rfl, List.Perm.refl _⟩
    · rw [if_neg hrest, if_neg hrest]
      have hperm : (σ₁ (((r :: rest).filterMap (fun x => x.email)).filter
            (fun m => decide (m ≠ "")))).Perm
          (σ₂ (((r :: rest).filterMap (fun x => x.email)).filter
            (fun m => decide (m ≠ "")))) :=
        (h₁ _).trans (h₂ _).symm
      refine ⟨?_, _, _, rfl, rfl, hperm⟩
      unfold eraseEmails condenseMulti
      simp only [HouseholdRecord.mk.injEq, and_true, true_and]
      exact hperm.length_eq
  unfold condense_records
  induction keysInOrder df with
  | nil => constructor
  | cons k ks ih =>
    simp only [List.map_cons]
    refine List.Forall₂.cons ?_ ih
    cases hg : groupOf df k with
    | nil => exact ⟨rfl, [], [], rfl, rfl, List.Perm.refl _⟩
    | cons r rest => exact hpair r rest

/-! ## Error confinement in the matching pass -/

theorem scanStep_skip_eq (f : ScoreOracle) (i0 j0 : Nat) (e : ExcelRecord)
    (claimed : Finset Nat) (hf : ∀ e2 h2, f i0 j0 e2 h2 = none) :
    scanStep f i0 e claimed ∅ = scanStep f i0 e claimed {j0} := by
  funext acc p
  unfold scanStep
  by_cases hji : p.1 = j0
  · subst hji
    simp only [Finset.not_mem_empty, or_false, Finset.mem_singleton, or_true, if_true]
    split_ifs with hc
    · rfl
    · rw [hf e p.2]
  · simp only [Finset.not_mem_empty, or_false, Finset.mem_singleton, hji]

theorem scanHoa_skip_eq (f : ScoreOracle) (i0 j0 : Nat) (e : ExcelRecord)
    (claimed : Finset Nat) (l : List (Nat × HouseholdRecord))
    (hf : ∀ e2 h2, f i0 j0 e2 h2 = none) :
    scanHoa f i0 e claimed ∅ l = scanHoa f i0 e claimed {j0} l := by
  unfold scanHoa
  rw [scanStep_skip_eq f i0 j0 e claimed hf]

theorem ownerStep_skip_eq (f : ScoreOracle) (i0 j0 : Nat) (σf : FlagOrder)
    (sorted : List (Nat × HouseholdRecord)) (hf : ∀ e2 h2, f i0 j0 e2 h2 = none) :
    ownerStep f (fun _ => ∅) σf sorted =
      ownerStep f (fun i => if i = i0 then {j0} else ∅) σf sorted := by
  funext st p
  unfold ownerStep
  by_cases hp : p.1 = i0
  · rw [show ((fun i => if i = i0 then ({j0} : Finset Nat) else ∅) p.1) = {j0} from
      by simp [hp]]
    rw [show ((fun _ : Nat => (∅ : Finset Nat)) p.1) = ∅ from rfl]
    rw [hp, scanHoa_skip_eq f i0 j0 p.2 st.matchedHoa sorted hf]
  · rw [show ((fun i => if i = i0 then ({j0} : Finset Nat) else ∅) p.1) = ∅ from
      by simp [hp]]

/-- C7: a comparison failure (the oracle returning `none`) for one
(owner, household) pair is confined to that pair: the run's full result set
equals the one obtained with that pair excluded from the owner's scan —
whatever sorted candidate list and flag-enumeration order the run uses —
and in particular neither the owner's scan nor the run aborts (the pass is
a total function that still emits its rows). -/
theorem failed_pair_confined (f : ScoreOracle) (σf : FlagOrder)
    (sorted : List (Nat × HouseholdRecord)) (excel : List ExcelRecord)
    (i0 j0 : Nat) (hf : ∀ e2 h2, f i0 j0 e2 h2 = none) :
    matchRecordsWith f (fun _ => ∅) σf sorted excel =
      matchRecordsWith f (fun i => if i = i0 then {j0} else ∅) σf sorted excel := by
  simp only [matchRecordsWith]
  rw [ownerStep_skip_eq f i0 j0 σf sorted hf]

/-- Witness for C7: a concrete oracle failing on the pair (0, 0); excluding
that pair gives the same result set on a concrete run. -/
theorem failed_pair_confined_witness :
    (∀ e2 h2, failOracle 0 0 e2 h2 = none) ∧
    matchRecordsWith failOracle (fun _ => ∅) canonFlagList
        (stableSortOracle [witHouseholdA]) [witOwnerA] =
      matchRecordsWith failOracle (fun i => if i = 0 then {0} else ∅)
        canonFlagList (stableSortOracle [witHouseholdA]) [witOwnerA] := by
  have hnone : ∀ e2 h2, failOracle 0 0 e2 h2 = none := by
    intro e2 h2
    simp [failOracle]
  exact ⟨hnone, failed_pair_confined failOracle canonFlagList
    (stableSortOracle [witHouseholdA]) [witOwnerA] 0 0 hnone⟩

/-! ## The inner scan computes a first-found maximum -/

theorem scanStep_inelig (f : ScoreOracle) (i : Nat) (e : ExcelRecord)
    (cl sk : Finset Nat) (acc : BestInfo) (p : Nat × HouseholdRecord)
    (he : eligible cl sk p = false) :
    scanStep f i e cl sk acc p = acc := by
  have hmem : p.1 ∈ cl ∨ p.1 ∈ sk := by
    by_contra hcon
    push_neg at hcon
    simp [eligible, hcon.1, hcon.2] at he
  unfold scanStep
  rw [if_pos hmem]

theorem scanStep_eff (f : ScoreOracle) (i : Nat) (e : ExcelRecord)
    (cl sk : Finset Nat) (acc : BestInfo) (p : Nat × HouseholdRecord)
    (he : eligible cl sk p = true) :
    scanStep f i e cl sk acc p =
      if acc.1 < effScore f i e p then (effScore f i e p, bestData f i e p)
      else acc := by
  have hno : ¬ (p.1 ∈ cl ∨ p.1 ∈ sk) := by
    intro hc
    rcases hc with hc | hc <;> simp [eligible, hc] at he
  unfold scanStep
  rw [if_neg hno]
  rcases hf : f i p.1 e p.2 with _ | r
  · simp [effScore, hf]
  · simp [effScore, bestData, hf]

theorem maxFrom_cons (f : ScoreOracle) (i : Nat) (e : ExcelRecord) (b : Nat)
    (p : Nat × HouseholdRecord) (t : List (Nat × HouseholdRecord)) :
    maxFrom f i e b (p :: t) = maxFrom f i e (max b (effScore f i e p)) t := rfl

theorem le_maxFrom (f : ScoreOracle) (i : Nat) (e : ExcelRecord) :
    ∀ (l : List (Nat × HouseholdRecord)) (b : Nat), b ≤ maxFrom f i e b l := by
  intro l
  induction l with
  | nil => intro b; exact le_rfl
  | cons p t ih =>
    intro b
    rw [maxFrom_cons]
    exact le_trans (Nat.le_max_left _ _) (ih _)

theorem scanFold_spec (f : ScoreOracle) (i : Nat) (e : ExcelRecord)
    (cl sk : Finset Nat) :
    ∀ (l : List (Nat × HouseholdRecord)) (b : Nat)
      (o : Option (Nat × HouseholdRecord × MatchDetails × Finset MatchFlags)),
    List.foldl (scanStep f i e cl sk) (b, o) l =
      (maxFrom f i e b (l.filter (eligible cl sk)),
       if b < maxFrom f i e b (l.filter (eligible cl sk))
       then pickFirst f i e (maxFrom f i e b (l.filter (eligible cl sk)))
         (l.filter (eligible cl sk))
       else o) := by
  intro l
  induction l with
  | nil =>
    intro b o
    simp [maxFrom]
  | cons p t ih =>
    intro b o
    rw [List.foldl_cons]
    by_cases he : eligible cl sk p = true
    · rw [scanStep_eff f i e cl sk (b, o) p he, List.filter_cons_of_pos he, maxFrom_cons]
      by_cases hbs : b < effScore f i e p
      · rw [if_pos hbs, ih]
        rw [Nat.max_eq_right (Nat.le_of_lt hbs)]
        have hsM := le_maxFrom f i e (t.filter (eligible cl sk)) (effScore f i e p)
        have hbM : b < maxFrom f i e (effScore f i e p) (t.filter (eligible cl sk)) :=
          lt_of_lt_of_le hbs hsM
        rw [if_pos hbM]
        congr 1
        by_cases hsM2 : effScore f i e p <
            maxFrom f i e (effScore f i e p) (t.filter (eligible cl sk))
        · rw [if_pos hsM2]
          unfold pickFirst
          rw [List.find?_cons_of_neg]
          simp only [decide_eq_true_eq]
          exact Nat.ne_of_lt hsM2
        · have hseq : maxFrom f i e (effScore f i e p) (t.filter (eligible cl sk)) =
              effScore f i e p := le_antisymm (not_lt.mp hsM2) hsM
          rw [if_neg hsM2]
          unfold pickFirst
          rw [List.find?_cons_of_pos]
          · rfl
          · simp [hseq]
      · rw [if_neg hbs, ih, Nat.max_eq_left (not_lt.mp hbs)]
        congr 1
        by_cases hbM : b < maxFrom f i e b (t.filter (eligible cl sk))
        · rw [if_pos hbM, if_pos hbM]
          unfold pickFirst
          rw [List.find?_cons_of_neg]
          simp only [decide_eq_true_eq]
          exact Nat.ne_of_lt (lt_of_le_of_lt (not_lt.mp hbs) hbM)
        · rw [if_neg hbM, if_neg hbM]
    · have he2 : eligible cl sk p = false := by simpa using he
      rw [scanStep_inelig f i e cl sk (b, o) p he2,
        List.filter_cons_of_neg (by simp [he2]), ih]

theorem scanHoa_eq_specScan (f : ScoreOracle) (i : Nat) (e : ExcelRecord)
    (cl sk : Finset Nat) (l : List (Nat × HouseholdRecord)) :
    scanHoa f i e cl sk l = specScan f i e cl sk l := by
  unfold scanHoa specScan
  rw [scanFold_spec]
  congr 1
  rcases Nat.eq_zero_or_pos (maxFrom f i e 0 (l.filter (eligible cl sk))) with h0 | h0
  · simp [h0]
  · rw [if_pos h0, if_neg (Nat.pos_iff_ne_zero.mp h0)]

theorem ownerStep_eq_spec (f : ScoreOracle) (skip : Nat → Finset Nat)
    (σf : FlagOrder) (sorted : List (Nat × HouseholdRecord)) :
    ownerStep f skip σf sorted = specOwnerStep f skip σf sorted := by
  funext st p
  unfold ownerStep specOwnerStep
  rw [scanHoa_eq_specScan]

theorem matchRecords_eq_specPass (f : ScoreOracle) (skip : Nat → Finset Nat)
    (σf : FlagOrder) (sorted : List (Nat × HouseholdRecord))
    (excel : List ExcelRecord) :
    matchRecordsWith f skip σf sorted excel =
      specMatchRecords f skip σf sorted excel := by
  simp only [matchRecordsWith, specMatchRecords]
  rw [ownerStep_eq_spec]

/-! ## The occupant-count sort: admissible outcomes -/

theorem mem_insLt {α : Type} (lt : α → α → Bool) (x : α) :
    ∀ (l : List α) (z : α), z ∈ insLt lt x l ↔ z = x ∨ z ∈ l := by
  intro l
  induction l with
  | nil => intro z; simp [insLt]
  | cons y ys ih =>
    intro z
    unfold insLt
    split_ifs with h
    · simp only [List.mem_cons, ih]
      tauto
    · simp only [List.mem_cons]

theorem insLt_pairwise {α : Type} (key : α → Nat) (lt : α → α → Bool)
    (hT : ∀ a b, lt a b = true → key a ≤ key b)
    (hF : ∀ a b, lt a b = false → key b ≤ key a) (x : α) :
    ∀ (l : List α), List.Pairwise (fun a b => key a ≤ key b) l →
    List.Pairwise (fun a b => key a ≤ key b) (insLt lt x l) := by
  intro l
  induction l with
  | nil => intro _; simp [insLt]
  | cons y ys ih =>
    intro hp
    rw [List.pairwise_cons] at hp
    unfold insLt
    split_ifs with h
    · rw [List.pairwise_cons]
      constructor
      · intro z hz
        rcases (mem_insLt _ x ys z).mp hz with rfl | hzys
        · exact hT _ _ h
        · exact hp.1 z hzys
      · exact ih hp.2
    · rw [List.pairwise_cons]
      constructor
      · intro z hz
        rcases List.mem_cons.mp hz with rfl | hzys
        · exact hF _ _ (by simpa using h)
        · exact le_trans (hF y x (by simpa using h)) (hp.1 z hzys)
      · exact List.pairwise_cons.mpr hp

theorem sortLt_pairwise {α : Type} (key : α → Nat) (lt : α → α → Bool)
    (hT : ∀ a b, lt a b = true → key a ≤ key b)
    (hF : ∀ a b, lt a b = false → key b ≤ key a) :
    ∀ (l : List α),
    List.Pairwise (fun a b => key a ≤ key b) (sortLt lt l) := by
  intro l
  induction l with
  | nil => simp [sortLt]
  | cons x xs ih => exact insLt_pairwise key lt hT hF x _ ih

theorem insLt_perm {α : Type} (lt : α → α → Bool) (x : α) :
    ∀ (l : List α), (insLt lt x l).Perm (x :: l) := by
  intro l
  induction l with
  | nil => exact List.Perm.refl _
  | cons y ys ih =>
    unfold insLt
    split_ifs with h
    · exact (ih.cons y).trans (List.Perm.swap x y ys)
    · exact List.Perm.refl _

theorem sortLt_perm {α : Type} (lt : α → α → Bool) :
    ∀ (l : List α), (sortLt lt l).Perm l := by
  intro l
  induction l with
  | nil => exact List.Perm.refl _
  | cons x xs ih => exact (insLt_perm lt x _).trans (ih.cons x)

theorem stableSort_ok : SortOracleOK stableSortOracle := by
  intro hoa
  refine ⟨sortLt_perm _ _, ?_⟩
  refine sortLt_pairwise (fun p : Nat × HouseholdRecord => p.2.numUniquePeople)
    hoaLt ?_ ?_ _
  · intro a b h
    exact Nat.le_of_lt (by simpa [hoaLt] using h)
  · intro a b h
    exact Nat.le_of_not_lt (by simpa [hoaLt] using h)

theorem antiSort_ok : SortOracleOK antiSortOracle := by
  intro hoa
  refine ⟨sortLt_perm _ _, ?_⟩
  refine sortLt_pairwise (fun p : Nat × HouseholdRecord => p.2.numUniquePeople)
    hoaLe ?_ ?_ _
  · intro a b h
    simpa [hoaLe] using h
  · intro a b h
    exact Nat.le_of_lt (Nat.lt_of_not_le (by simpa [hoaLe] using h))

theorem canonFlagList_valid : FlagOrderValid canonFlagList :=
  fun _ => List.Perm.refl _

theorem revFlagList_valid : FlagOrderValid revFlagList :=
  fun _ => List.reverse_perm _

theorem insLt_keyProj (x₁ x₂ : Nat × HouseholdRecord)
    (hx : keyProj x₁ = keyProj x₂) :
    ∀ {l₁ l₂ : List (Nat × HouseholdRecord)}, l₁.map keyProj = l₂.map keyProj →
    (insLt hoaLt x₁ l₁).map keyProj = (insLt hoaLt x₂ l₂).map keyProj := by
  intro l₁
  induction l₁ with
  | nil =>
    intro l₂ hl
    have hl₂ : l₂ = [] := by
      cases l₂ with
      | nil => rfl
      | cons q u => simp at hl
    subst hl₂
    simp [insLt, hx]
  | cons y t ih =>
    intro l₂ hl
    cases l₂ with
    | nil => simp at hl
    | cons z u =>
      simp only [List.map_cons, List.cons.injEq] at hl
      have hcond : hoaLt y x₁ = hoaLt z x₂ := by
        unfold hoaLt
        rw [show y.2.numUniquePeople = z.2.numUniquePeople from
            congrArg Prod.snd hl.1,
          show x₁.2.numUniquePeople = x₂.2.numUniquePeople from
            congrArg Prod.snd hx]
      unfold insLt
      by_cases hzc : hoaLt z x₂ = true
      · rw [if_pos hzc, if_pos (hcond.trans hzc)]
        simp only [List.map_cons]
        rw [hl.1, ih hl.2]
      · rw [if_neg hzc, if_neg (fun hc => hzc (hcond.symm.trans hc))]
        simp only [List.map_cons]
        rw [hx, hl.1, hl.2]

theorem sortLt_keyProj :
    ∀ {l₁ l₂ : List (Nat × HouseholdRecord)}, l₁.map keyProj = l₂.map keyProj →
    (sortLt hoaLt l₁).map keyProj = (sortLt hoaLt l₂).map keyProj := by
  intro l₁
  induction l₁ with
  | nil =>
    intro l₂ hl
    have hl₂ : l₂ = [] := by
      cases l₂ with
      | nil => rfl
      | cons q u => simp at hl
    subst hl₂
    rfl
  | cons y t ih =>
    intro l₂ hl
    cases l₂ with
    | nil => simp at hl
    | cons z u =>
      simp only [List.map_cons, List.cons.injEq] at hl
      show (insLt hoaLt y (sortLt hoaLt t)).map keyProj =
        (insLt hoaLt z (sortLt hoaLt u)).map keyProj
      exact insLt_keyProj y z hl.1 (ih hl.2)

theorem enumFromL_keyProj :
    ∀ {h₁ h₂ : List HouseholdRecord},
    h₁.map HouseholdRecord.numUniquePeople =
      h₂.map HouseholdRecord.numUniquePeople →
    ∀ (k : Nat), (enumFromL k h₁).map keyProj = (enumFromL k h₂).map keyProj := by
  intro h₁
  induction h₁ with
  | nil =>
    intro h₂ hl k
    cases h₂ with
    | nil => rfl
    | cons q u => simp at hl
  | cons y t ih =>
    intro h₂ hl k
    cases h₂ with
    | nil => simp at hl
    | cons z u =>
      simp only [List.map_cons, List.cons.injEq] at hl
      show keyProj (k, y) :: (enumFromL (k + 1) t).map keyProj =
        keyProj (k, z) :: (enumFromL (k + 1) u).map keyProj
      rw [show keyProj (k, y) = keyProj (k, z) from by simp [keyProj, hl.1],
        ih hl.2 (k + 1)]

/-- The stable insertion sort inspects only original positions and sort
keys, so it is key-determined. -/
theorem stableSort_keyDet : KeyDetermined stableSortOracle := by
  intro h₁ h₂ hk
  have hmaps := sortLt_keyProj (enumFromL_keyProj hk 0)
  have hfst : ∀ l : List (Nat × HouseholdRecord),
      l.map Prod.fst = (l.map keyProj).map Prod.fst := by
    intro l
    rw [List.map_map]
    rfl
  show (sortLt hoaLt (enumFromL 0 h₁)).map Prod.fst =
    (sortLt hoaLt (enumFromL 0 h₂)).map Prod.fst
  rw [hfst, hfst, hmaps]

/-- Counterexample to C3 as stated: the claim's "(then original order)"
tie-break is not program behaviour.  `sort_values` guarantees only an
ascending-occupant-count permutation (its default quicksort is unstable);
here are two sort outcomes, both within that guarantee, that drive the pass
to different result sets on the same input — two equal-occupant households
tied at the same score against one owner, where the scan order decides
which of them the owner claims. -/
theorem scan_order_cex :
    SortOracleOK stableSortOracle ∧ SortOracleOK antiSortOracle ∧
    stableSortOracle [witHouseholdA, witHouseholdA] ≠
      antiSortOracle [witHouseholdA, witHouseholdA] ∧
    match_records stableSortOracle canonFlagList [witOwnerA]
        [witHouseholdA, witHouseholdA] ≠
      match_records antiSortOracle canonFlagList [witOwnerA]
        [witHouseholdA, witHouseholdA] :=
  ⟨stableSort_ok, antiSort_ok, by decide, by decide⟩

/-- C3 amended: for every admissible sort outcome — the occupant-count sort
guarantees an ascending permutation of the households but, being unstable,
no tie order — the pass processes owners in original order and equals the
claimed description over that sorted candidate list: each owner scans every
still-unclaimed household in the sorted order, the maximum candidate score
wins with ties broken in favour of the earliest-scanned candidate
(`specScan`'s `find?`), a matched row claiming that household is emitted
iff the maximum is at least 50, an emitted row has type Exact iff its score
is at least 100 and Fuzzy otherwise, and an owner whose maximum is below 50
leaves the pass state unchanged — it remains unmatched after the pass. -/
theorem greedy_pass_spec (σs : SortOracle) (σf : FlagOrder)
    (hσ : SortOracleOK σs) (excel : List ExcelRecord)
    (hoa : List HouseholdRecord) :
    (σs hoa).Perm (enumFromL 0 hoa) ∧
    List.Pairwise (fun a b => a.2.numUniquePeople ≤ b.2.numUniquePeople)
      (σs hoa) ∧
    match_records σs σf excel hoa =
      specMatchRecords realOracle (fun _ => ∅) σf (σs hoa) excel ∧
    (∀ (i : Nat) (e : ExcelRecord) (j : Nat) (h : HouseholdRecord)
        (s : Nat) (det : MatchDetails) (fl : List MatchFlags),
      ((mkMatchedRow i e j h s det fl).matchType = .exact ↔ 100 ≤ s) ∧
      ((mkMatchedRow i e j h s det fl).matchType = .fuzzy ↔ s < 100)) ∧
    (∀ (f : ScoreOracle) (skip : Nat → Finset Nat) (σg : FlagOrder)
        (sorted : List (Nat × HouseholdRecord)) (st : PassState)
        (p : Nat × ExcelRecord),
      (scanHoa f p.1 p.2 st.matchedHoa (skip p.1) sorted).1 < 50 →
      ownerStep f skip σg sorted st p = st) := by
  refine ⟨(hσ hoa).1, (hσ hoa).2,
    matchRecords_eq_specPass realOracle (fun _ => ∅) σf (σs hoa) excel, ?_, ?_⟩
  · intro i e j h s det fl
    by_cases hs : 100 ≤ s <;> simp [mkMatchedRow, hs]
    all_goals omega
  · intro f skip σg sorted st p hlow
    unfold ownerStep
    rw [if_neg (not_le.mpr hlow)]

/-- Witness for the amended C3: a concrete valid sort oracle; on a concrete
one-owner, one-household run the engine equals the specification pass, and
an owner whose scan maximum is below 50 leaves the state unchanged. -/
theorem greedy_pass_spec_witness :
    SortOracleOK stableSortOracle ∧
    match_records stableSortOracle canonFlagList [blankOwner] [blankHousehold] =
      specMatchRecords realOracle (fun _ => ∅) canonFlagList
        (stableSortOracle [blankHousehold]) [blankOwner] ∧
    ownerStep realOracle (fun _ => ∅) canonFlagList
      (stableSortOracle [blankHousehold]) ⟨[], ∅, ∅⟩ (0, blankOwner) =
      ⟨[], ∅, ∅⟩ := by
  have h := greedy_pass_spec stableSortOracle canonFlagList stableSort_ok
    [blankOwner] [blankHousehold]
  refine ⟨stableSort_ok, h.2.2.1, ?_⟩
  apply h.2.2.2.2
  decide

/-! ## Conservation of the matching pass -/

theorem mkMatchedRow_ownerIdx (i : Nat) (e : ExcelRecord) (j : Nat)
    (h : HouseholdRecord) (s : Nat) (d : MatchDetails) (fl : List MatchFlags) :
    (mkMatchedRow i e j h s d fl).ownerIdx = some i := rfl

theorem mkMatchedRow_hoaIdx (i : Nat) (e : ExcelRecord) (j : Nat)
    (h : HouseholdRecord) (s : Nat) (d : MatchDetails) (fl : List MatchFlags) :
    (mkMatchedRow i e j h s d fl).hoaIdx = some j := rfl

theorem mkMatchedRow_score (i : Nat) (e : ExcelRecord) (j : Nat)
    (h : HouseholdRecord) (s : Nat) (d : MatchDetails) (fl : List MatchFlags) :
    (mkMatchedRow i e j h s d fl).score = s := rfl

theorem ownerStep_eq_of_low (f : ScoreOracle) (skip : Nat → Finset Nat)
    (σf : FlagOrder) (sorted : List (Nat × HouseholdRecord)) (st : PassState)
    (p : Nat × ExcelRecord)
    (h50 : ¬ 50 ≤ (scanHoa f p.1 p.2 st.matchedHoa (skip p.1) sorted).1) :
    ownerStep f skip σf sorted st p = st := by
  unfold ownerStep
  rw [if_neg h50]

theorem ownerStep_eq_of_none (f : ScoreOracle) (skip : Nat → Finset Nat)
    (σf : FlagOrder) (sorted : List (Nat × HouseholdRecord)) (st : PassState)
    (p : Nat × ExcelRecord)
    (hb : (scanHoa f p.1 p.2 st.matchedHoa (skip p.1) sorted).2 = none) :
    ownerStep f skip σf sorted st p = st := by
  unfold ownerStep
  split_ifs with h50
  · rw [hb]
  · rfl

theorem ownerStep_eq_of_some (f : ScoreOracle) (skip : Nat → Finset Nat)
    (σf : FlagOrder) (sorted : List (Nat × HouseholdRecord)) (st : PassState)
    (p : Nat × ExcelRecord)
    (j : Nat) (h : HouseholdRecord) (d : MatchDetails) (fl : Finset MatchFlags)
    (hb : (scanHoa f p.1 p.2 st.matchedHoa (skip p.1) sorted).2 = some (j, h, d, fl))
    (h50 : 50 ≤ (scanHoa f p.1 p.2 st.matchedHoa (skip p.1) sorted).1) :
    ownerStep f skip σf sorted st p =
      ⟨st.results ++ [mkMatchedRow p.1 p.2 j h
          (scanHoa f p.1 p.2 st.matchedHoa (skip p.1) sorted).1 d (σf fl)],
        insert j st.matchedHoa, insert p.1 st.matchedExcel⟩ := by
  unfold ownerStep
  rw [if_pos h50, hb]

theorem scanFold_mem (f : ScoreOracle) (i : Nat) (e : ExcelRecord)
    (cl sk : Finset Nat) :
    ∀ (l : List (Nat × HouseholdRecord)) (acc : BestInfo)
      (j : Nat) (h : HouseholdRecord) (d : MatchDetails) (fl : Finset MatchFlags),
    (List.foldl (scanStep f i e cl sk) acc l).2 = some (j, h, d, fl) →
    acc.2 = some (j, h, d, fl) ∨ (j ∉ cl ∧ (j, h) ∈ l) := by
  intro l
  induction l with
  | nil => intro acc j h d fl hres; exact Or.inl hres
  | cons p t ih =>
    intro acc j h d fl hres
    rw [List.foldl_cons] at hres
    rcases ih _ _ _ _ _ hres with hacc | hmem
    · by_cases he : eligible cl sk p = true
      · rw [scanStep_eff f i e cl sk acc p he] at hacc
        by_cases himp : acc.1 < effScore f i e p
        · rw [if_pos himp] at hacc
          have hbd : bestData f i e p = some (j, h, d, fl) := hacc
          unfold bestData at hbd
          rcases hf : f i p.1 e p.2 with _ | r
          · rw [hf] at hbd
            simp at hbd
          · rw [hf] at hbd
            simp only [Option.map_some'] at hbd
            have h1 : p.1 = j ∧ p.2 = h ∧ r.2.1 = d ∧ r.2.2 = fl := by
              simpa [Prod.ext_iff] using hbd
            have hncl : p.1 ∉ cl := by
              by_contra hc
              simp [eligible, hc] at he
            refine Or.inr ⟨h1.1 ▸ hncl, ?_⟩
            rw [← h1.1, ← h1.2.1]
            exact List.mem_cons_self p t
        · rw [if_neg himp] at hacc
          exact Or.inl hacc
      · have he2 : eligible cl sk p = false := by simpa using he
        rw [scanStep_inelig f i e cl sk acc p he2] at hacc
        exact Or.inl hacc
    · exact Or.inr ⟨hmem.1, List.mem_cons_of_mem p hmem.2⟩

theorem ownerStep_inv (f : ScoreOracle) (skip : Nat → Finset Nat)
    (σf : FlagOrder) (sorted : List (Nat × HouseholdRecord)) (idxs : Finset Nat)
    (hsor : ∀ p ∈ sorted, p.1 ∈ idxs)
    (k : Nat) (e : ExcelRecord) (st : PassState) (hinv : StInv k idxs st) :
    StInv (k + 1) idxs (ownerStep f skip σf sorted st (k, e)) := by
  obtain ⟨hOwn, hHoa, hLt, hSub, hScore⟩ := hinv
  by_cases h50 : 50 ≤ (scanHoa f k e st.matchedHoa (skip k) sorted).1
  · rcases hb : (scanHoa f k e st.matchedHoa (skip k) sorted).2 with _ | ⟨j, h, d, fl⟩
    · rw [ownerStep_eq_of_none f skip σf sorted st (k, e) hb]
      exact ⟨hOwn, hHoa, fun i hi => Nat.lt_succ_of_lt (hLt i hi), hSub, hScore⟩
    · rw [ownerStep_eq_of_some f skip σf sorted st (k, e) j h d fl hb h50]
      rcases scanFold_mem f k e st.matchedHoa (skip k) sorted (0, none) j h d fl hb with
        hnone | ⟨hjcl, hjmem⟩
      · simp at hnone
      have hkE : k ∉ st.matchedExcel := fun hc => lt_irrefl k (hLt k hc)
      refine ⟨?_, ?_, ?_, ?_, ?_⟩
      · intro i
        unfold countOwnerRows
        rw [List.countP_append, List.countP_cons, List.countP_nil]
        by_cases hik : i = k
        · subst hik
          have := hOwn i
          unfold countOwnerRows at this
          rw [this]
          simp [hkE, mkMatchedRow_ownerIdx]
        · have := hOwn i
          unfold countOwnerRows at this
          rw [this]
          have hki : ¬ (k = i) := fun hc => hik hc.symm
          simp [Finset.mem_insert, hik, hki, mkMatchedRow_ownerIdx]
      · intro j2
        unfold countHoaRows
        rw [List.countP_append, List.countP_cons, List.countP_nil]
        by_cases hjj : j2 = j
        · subst hjj
          have := hHoa j2
          unfold countHoaRows at this
          rw [this]
          simp [hjcl, mkMatchedRow_hoaIdx]
        · have := hHoa j2
          unfold countHoaRows at this
          rw [this]
          have hjj2 : ¬ (j = j2) := fun hc => hjj hc.symm
          simp [Finset.mem_insert, hjj, hjj2, mkMatchedRow_hoaIdx]
      · intro i hi
        rcases Finset.mem_insert.mp hi with rfl | him
        · exact Nat.lt_succ_self i
        · exact Nat.lt_succ_of_lt (hLt i him)
      · intro x hx
        rcases Finset.mem_insert.mp hx with rfl | hxm
        · exact hsor (x, h) hjmem
        · exact hSub hxm
      · intro r hr
        rcases List.mem_append.mp hr with hr1 | hr2
        · exact hScore r hr1
        · have hreq : r = mkMatchedRow k e j h
              (scanHoa f k e st.matchedHoa (skip k) sorted).1 d (σf fl) := by
            simpa using hr2
          rw [hreq, mkMatchedRow_score]
          exact h50
  · rw [ownerStep_eq_of_low f skip σf sorted st (k, e) h50]
    exact ⟨hOwn, hHoa, fun i hi => Nat.lt_succ_of_lt (hLt i hi), hSub, hScore⟩

theorem foldl_ownerStep_inv (f : ScoreOracle) (skip : Nat → Finset Nat)
    (σf : FlagOrder) (sorted : List (Nat × HouseholdRecord)) (idxs : Finset Nat)
    (hsor : ∀ p ∈ sorted, p.1 ∈ idxs) :
    ∀ (rest : List ExcelRecord) (k : Nat) (st : PassState), StInv k idxs st →
    StInv (k + rest.length) idxs
      (List.foldl (ownerStep f skip σf sorted) st (enumFromL k rest)) := by
  intro rest
  induction rest with
  | nil =>
    intro k st h
    simpa [enumFromL] using h
  | cons e t ih =>
    intro k st h
    have h1 := ownerStep_inv f skip σf sorted idxs hsor k e st h
    have h2 := ih (k + 1) _ h1
    have hlen : k + (e :: t).length = (k + 1) + t.length := by
      simp [List.length_cons]
      omega
    rw [show enumFromL k (e :: t) = (k, e) :: enumFromL (k + 1) t from rfl,
      List.foldl_cons, hlen]
    exact h2

theorem mem_enumFromL {α : Type} :
    ∀ (l : List α) (k : Nat) (p : Nat × α),
    p ∈ enumFromL k l → k ≤ p.1 ∧ p.1 < k + l.length := by
  intro l
  induction l with
  | nil => intro k p hp; simp [enumFromL] at hp
  | cons x xs ih =>
    intro k p hp
    rw [show enumFromL k (x :: xs) = (k, x) :: enumFromL (k + 1) xs from rfl] at hp
    rcases List.mem_cons.mp hp with rfl | hp2
    · simp [List.length_cons]
    · have := ih (k + 1) p hp2
      simp only [List.length_cons]
      omega

theorem skipList_mem {α : Type} (mk : Nat → α → MatchRow) (S : Finset Nat)
    (l : List (Nat × α)) (r : MatchRow) :
    r ∈ l.filterMap (fun p => if p.1 ∈ S then none else some (mk p.1 p.2)) →
    ∃ p ∈ l, p.1 ∉ S ∧ r = mk p.1 p.2 := by
  intro hr
  obtain ⟨p, hp, hpr⟩ := List.mem_filterMap.mp hr
  by_cases hps : p.1 ∈ S
  · rw [if_pos hps] at hpr
    cases hpr
  · rw [if_neg hps] at hpr
    exact ⟨p, hp, hps, (Option.some.inj hpr).symm⟩

theorem skipList_cons_mem {α : Type} (mk : Nat → α → MatchRow) (S : Finset Nat)
    (k : Nat) (x : α) (rest : List (Nat × α)) (hk : k ∈ S) :
    ((k, x) :: rest).filterMap
        (fun p => if p.1 ∈ S then none else some (mk p.1 p.2)) =
      rest.filterMap (fun p => if p.1 ∈ S then none else some (mk p.1 p.2)) := by
  simp [List.filterMap_cons, hk]

theorem skipList_cons_notmem {α : Type} (mk : Nat → α → MatchRow) (S : Finset Nat)
    (k : Nat) (x : α) (rest : List (Nat × α)) (hk : k ∉ S) :
    ((k, x) :: rest).filterMap
        (fun p => if p.1 ∈ S then none else some (mk p.1 p.2)) =
      mk k x ::
        rest.filterMap (fun p => if p.1 ∈ S then none else some (mk p.1 p.2)) := by
  simp [List.filterMap_cons, hk]

theorem skipCount_mem {α : Type} (mk : Nat → α → MatchRow)
    (pr : MatchRow → Option Nat) (hmk : ∀ (k : Nat) (x : α), pr (mk k x) = some k) :
    ∀ (l : List α) (k : Nat) (S : Finset Nat) (i : Nat), i ∈ S →
    ((enumFromL k l).filterMap
      (fun p => if p.1 ∈ S then none else some (mk p.1 p.2))).countP
        (fun r => decide (pr r = some i)) = 0 := by
  intro l
  induction l with
  | nil => intro k S i _; rfl
  | cons x xs ihl =>
    intro k S i hi
    rw [show enumFromL k (x :: xs) = (k, x) :: enumFromL (k + 1) xs from rfl]
    by_cases hk : k ∈ S
    · rw [skipList_cons_mem mk S k x _ hk]
      exact ihl (k + 1) S i hi
    · rw [skipList_cons_notmem mk S k x _ hk]
      rw [List.countP_cons, ihl (k + 1) S i hi]
      have hki : ¬ (k = i) := fun hc => hk (hc ▸ hi)
      simp [hmk, hki]

theorem skipCount_below {α : Type} (mk : Nat → α → MatchRow)
    (pr : MatchRow → Option Nat) (hmk : ∀ (k : Nat) (x : α), pr (mk k x) = some k) :
    ∀ (l : List α) (k : Nat) (S : Finset Nat) (i : Nat), i < k →
    ((enumFromL k l).filterMap
      (fun p => if p.1 ∈ S then none else some (mk p.1 p.2))).countP
        (fun r => decide (pr r = some i)) = 0 := by
  intro l
  induction l with
  | nil => intro k S i _; rfl
  | cons x xs ihl =>
    intro k S i hik
    rw [show enumFromL k (x :: xs) = (k, x) :: enumFromL (k + 1) xs from rfl]
    by_cases hk : k ∈ S
    · rw [skipList_cons_mem mk S k x _ hk]
      exact ihl (k + 1) S i (Nat.lt_succ_of_lt hik)
    · rw [skipList_cons_notmem mk S k x _ hk]
      rw [List.countP_cons, ihl (k + 1) S i (Nat.lt_succ_of_lt hik)]
      have hki : ¬ (k = i) := by omega
      simp [hmk, hki]

theorem skipCount_hit {α : Type} (mk : Nat → α → MatchRow)
    (pr : MatchRow → Option Nat) (hmk : ∀ (k : Nat) (x : α), pr (mk k x) = some k) :
    ∀ (l : List α) (k : Nat) (S : Finset Nat) (i : Nat),
      i ∉ S → k ≤ i → i < k + l.length →
    ((enumFromL k l).filterMap
      (fun p => if p.1 ∈ S then none else some (mk p.1 p.2))).countP
        (fun r => decide (pr r = some i)) = 1 := by
  intro l
  induction l with
  | nil =>
    intro k S i _ hki hik
    simp at hik
    omega
  | cons x xs ihl =>
    intro k S i hiS hki hik
    rw [show enumFromL k (x :: xs) = (k, x) :: enumFromL (k + 1) xs from rfl]
    by_cases hik2 : i = k
    · subst hik2
      rw [skipList_cons_notmem mk S i x _ hiS]
      rw [List.countP_cons,
        skipCount_below mk pr hmk xs (i + 1) S i (Nat.lt_succ_self i)]
      simp [hmk]
    · have hk1 : k + 1 ≤ i := by omega
      have hik3 : i < (k + 1) + xs.length := by
        simp only [List.length_cons] at hik
        omega
      by_cases hk : k ∈ S
      · rw [skipList_cons_mem mk S k x _ hk]
        exact ihl (k + 1) S i hiS hk1 hik3
      · rw [skipList_cons_notmem mk S k x _ hk]
        rw [List.countP_cons, ihl (k + 1) S i hiS hk1 hik3]
        have hki2 : ¬ (k = i) := fun hc => hik2 hc.symm
        simp [hmk, hki2]

theorem removedRow_ownerIdx (i : Nat) (e : ExcelRecord) :
    (removedRow i e).ownerIdx = some i := rfl

theorem newRow_hoaIdx (j : Nat) (h : HouseholdRecord) :
    (newRow j h).hoaIdx = some j := rfl

/-- C2: conservation, for every admissible sort outcome and every
flag-enumeration order.  Every input owner position appears in exactly one
output row, every input household position appears in exactly one output
row, and no household is carried by more than one matched (score at least
50) row. -/
theorem match_conservation (σs : SortOracle) (σf : FlagOrder)
    (hσ : SortOracleOK σs)
    (excel : List ExcelRecord) (hoa : List HouseholdRecord) :
    (∀ i, i < excel.length →
      countOwnerRows (match_records σs σf excel hoa) i = 1) ∧
    (∀ j, j < hoa.length →
      countHoaRows (match_records σs σf excel hoa) j = 1) ∧
    (∀ j, countMatchedHoaRows (match_records σs σf excel hoa) j ≤ 1) := by
  have hsperm : (σs hoa).Perm (enumFromL 0 hoa) := (hσ hoa).1
  have hsor : ∀ p ∈ σs hoa, p.1 ∈ Finset.range hoa.length := by
    intro p hp
    have hp2 : p ∈ enumFromL 0 hoa := hsperm.mem_iff.mp hp
    have hb := mem_enumFromL hoa 0 p hp2
    rw [Finset.mem_range]
    omega
  have hinit : StInv 0 (Finset.range hoa.length) ⟨[], ∅, ∅⟩ := by
    refine ⟨?_, ?_, ?_, ?_, ?_⟩ <;>
      simp [countOwnerRows, countHoaRows]
  have hfold := foldl_ownerStep_inv realOracle (fun _ => ∅) σf (σs hoa)
    (Finset.range hoa.length) hsor excel 0 ⟨[], ∅, ∅⟩ hinit
  obtain ⟨hOwn, hHoa, _, _, hScore⟩ := hfold
  have hperm : (match_records σs σf excel hoa).Perm
      ((List.foldl (ownerStep realOracle (fun _ => ∅) σf (σs hoa))
          ⟨[], ∅, ∅⟩ (enumFromL 0 excel)).results ++
        (enumFromL 0 excel).filterMap
          (fun p => if p.1 ∈ (List.foldl (ownerStep realOracle (fun _ => ∅)
              σf (σs hoa)) ⟨[], ∅, ∅⟩ (enumFromL 0 excel)).matchedExcel
            then none else some (removedRow p.1 p.2)) ++
        (σs hoa).filterMap
          (fun p => if p.1 ∈ (List.foldl (ownerStep realOracle (fun _ => ∅)
              σf (σs hoa)) ⟨[], ∅, ∅⟩ (enumFromL 0 excel)).matchedHoa
            then none else some (newRow p.1 p.2))) := by
    exact sortLt_perm rowLt _
  set stF := List.foldl (ownerStep realOracle (fun _ => ∅) σf (σs hoa))
    ⟨[], ∅, ∅⟩ (enumFromL 0 excel) with hstF
  have hnews : ((σs hoa).filterMap
      (fun p => if p.1 ∈ stF.matchedHoa then none else some (newRow p.1 p.2))).Perm
      ((enumFromL 0 hoa).filterMap
        (fun p => if p.1 ∈ stF.matchedHoa then none else some (newRow p.1 p.2))) :=
    hsperm.filterMap _
  refine ⟨?_, ?_, ?_⟩
  · intro i hi
    unfold countOwnerRows
    rw [hperm.countP_eq, List.countP_append, List.countP_append]
    have hA := hOwn i
    unfold countOwnerRows at hA
    have hC : ((σs hoa).filterMap
        (fun p => if p.1 ∈ stF.matchedHoa then none else some (newRow p.1 p.2))).countP
          (fun r => decide (r.ownerIdx = some i)) = 0 := by
      rw [List.countP_eq_zero]
      intro r hr
      obtain ⟨p, _, _, hreq⟩ := skipList_mem newRow stF.matchedHoa _ r hr
      simp [hreq, newRow]
    by_cases hiM : i ∈ stF.matchedExcel
    · have hB := skipCount_mem removedRow MatchRow.ownerIdx removedRow_ownerIdx
        excel 0 stF.matchedExcel i hiM
      rw [hA, hB, hC, if_pos hiM]
    · have hB := skipCount_hit removedRow MatchRow.ownerIdx removedRow_ownerIdx
        excel 0 stF.matchedExcel i hiM (Nat.zero_le i) (by omega)
      rw [hA, hB, hC, if_neg hiM]
  · intro j hj
    unfold countHoaRows
    rw [hperm.countP_eq, List.countP_append, List.countP_append]
    have hA := hHoa j
    unfold countHoaRows at hA
    have hB : ((enumFromL 0 excel).filterMap
        (fun p => if p.1 ∈ stF.matchedExcel then none
          else some (removedRow p.1 p.2))).countP
          (fun r => decide (r.hoaIdx = some j)) = 0 := by
      rw [List.countP_eq_zero]
      intro r hr
      obtain ⟨p, _, _, hreq⟩ := skipList_mem removedRow stF.matchedExcel _ r hr
      simp [hreq, removedRow]
    rw [hA, hB, hnews.countP_eq]
    by_cases hjM : j ∈ stF.matchedHoa
    · have hD := skipCount_mem newRow MatchRow.hoaIdx newRow_hoaIdx
        hoa 0 stF.matchedHoa j hjM
      rw [hD, if_pos hjM]
    · have hD := skipCount_hit newRow MatchRow.hoaIdx newRow_hoaIdx
        hoa 0 stF.matchedHoa j hjM (Nat.zero_le j) (by omega)
      rw [hD, if_neg hjM]
  · intro j
    unfold countMatchedHoaRows
    rw [hperm.countP_eq, List.countP_append, List.countP_append]
    have hB : ((enumFromL 0 excel).filterMap
        (fun p => if p.1 ∈ stF.matchedExcel then none
          else some (removedRow p.1 p.2))).countP
          (fun r => decide (50 ≤ r.score) && decide (r.hoaIdx = some j)) = 0 := by
      rw [List.countP_eq_zero]
      intro r hr
      obtain ⟨p, _, _, hreq⟩ := skipList_mem removedRow stF.matchedExcel _ r hr
      simp [hreq, removedRow]
    have hC : ((σs hoa).filterMap
        (fun p => if p.1 ∈ stF.matchedHoa then none else some (newRow p.1 p.2))).countP
          (fun r => decide (50 ≤ r.score) && decide (r.hoaIdx = some j)) = 0 := by
      rw [List.countP_eq_zero]
      intro r hr
      obtain ⟨p, _, _, hreq⟩ := skipList_mem newRow stF.matchedHoa _ r hr
      simp [hreq, newRow]
    have hAle : stF.results.countP
        (fun r => decide (50 ≤ r.score) && decide (r.hoaIdx = some j)) ≤
        stF.results.countP (fun r => decide (r.hoaIdx = some j)) := by
      apply List.countP_mono_left
      intro r _ hb
      simp only [Bool.and_eq_true] at hb
      exact hb.2
    have hA := hHoa j
    unfold countHoaRows at hA
    rw [hB, hC]
    have : stF.results.countP (fun r => decide (r.hoaIdx = some j)) ≤ 1 := by
      rw [hA]
      split_ifs <;> omega
    omega

/-- Witness for C2: a concrete valid sort oracle; on a concrete one-owner,
one-household run, owner 0 and household 0 each appear in exactly one row,
and household 0 is matched at most once. -/
theorem match_conservation_witness :
    SortOracleOK stableSortOracle ∧ (0 : Nat) < 1 ∧
    countOwnerRows (match_records stableSortOracle canonFlagList
      [witOwnerA] [witHouseholdA]) 0 = 1 ∧
    countHoaRows (match_records stableSortOracle canonFlagList
      [witOwnerA] [witHouseholdA]) 0 = 1 ∧
    countMatchedHoaRows (match_records stableSortOracle canonFlagList
      [witOwnerA] [witHouseholdA]) 0 ≤ 1 := by
  have h := match_conservation stableSortOracle canonFlagList stableSort_ok
    [witOwnerA] [witHouseholdA]
  exact ⟨stableSort_ok, Nat.zero_lt_one, h.1 0 Nat.zero_lt_one,
    h.2.1 0 Nat.zero_lt_one, h.2.2 0⟩

/-! ## Determinism of the full engine up to enumeration orders -/

theorem anyPerm {α : Type} (p : α → Bool) {l₁ l₂ : List α} (h : l₁.Perm l₂) :
    l₁.any p = l₂.any p := by
  have hiff : l₁.any p = true ↔ l₂.any p = true := by
    rw [List.any_eq_true, List.any_eq_true]
    constructor <;> rintro ⟨x, hx, hp⟩
    · exact ⟨x, h.mem_iff.mp hx, hp⟩
    · exact ⟨x, h.mem_iff.mpr hx, hp⟩
  cases h1 : l₁.any p with
  | false =>
    cases h2 : l₂.any p with
    | false => rfl
    | true => exact absurd (hiff.mpr h2) (by simp [h1])
  | true => exact (hiff.mp h1).symm

theorem email_flags_perm (x : String) {l₁ l₂ : List String} (h : l₁.Perm l₂) :
    evaluate_email_flags x (.list l₁) = evaluate_email_flags x (.list l₂) := by
  have hlen := h.length_eq
  by_cases h2 : l₂ = []
  · subst h2
    have h1 : l₁ = [] := List.length_eq_zero.mp (by simpa using hlen)
    rw [h1]
  · have h1 : l₁ ≠ [] := by
      intro hE
      subst hE
      exact h2 (List.length_eq_zero.mp (by simpa using hlen.symm))
    have hany := anyPerm
      (fun m => decide (m ≠ "") && decide (pyLower m = pyLower x)) h
    simp only [evaluate_email_flags, EmailField.toList]
    rw [if_neg (show ¬(x = "" ∧ l₁ = []) from fun hc => h1 hc.2),
      if_neg (show ¬(x = "" ∧ l₂ = []) from fun hc => h2 hc.2),
      if_neg (show ¬(x ≠ "" ∧ l₁ = []) from fun hc => h1 hc.2),
      if_neg (show ¬(x ≠ "" ∧ l₂ = []) from fun hc => h2 hc.2)]
    congr 1
    · exact if_congr (by rw [hlen]) rfl rfl
    · refine if_congr (and_congr_right fun _ => not_congr ?_) rfl rfl
      rw [hany]

theorem emailScoreHit_perm (e : ExcelRecord) (H : HouseholdRecord)
    {l₁ l₂ : List String} (h : l₁.Perm l₂) :
    emailScoreHit e { H with email := .list l₁ } =
      emailScoreHit e { H with email := .list l₂ } := by
  have hne : decide (l₁ ≠ []) = decide (l₂ ≠ []) := by
    apply decide_eq_decide.mpr
    constructor
    · intro ha hE
      subst hE
      exact ha (List.length_eq_zero.mp (by simpa using h.length_eq))
    · intro hb hE
      subst hE
      exact hb (List.length_eq_zero.mp (by simpa using h.length_eq.symm))
  have hany := anyPerm
    (fun m => decide (m ≠ "") && decide (pyLower e.email = pyLower m)) h
  unfold emailScoreHit
  simp only [EmailField.truthy, EmailField.toList]
  rw [hne, hany]

theorem score_email_congr (e : ExcelRecord) (H : HouseholdRecord)
    {l₁ l₂ : List String} (h : l₁.Perm l₂) :
    calculate_match_score e { H with email := .list l₁ } =
      calculate_match_score e { H with email := .list l₂ } := by
  have hfl : evaluate_email_flags e.email (EmailField.list l₁) =
      evaluate_email_flags e.email (EmailField.list l₂) :=
    email_flags_perm e.email h
  have hhit := emailScoreHit_perm e H h
  simp only [calculate_match_score]
  rw [hfl, hhit]
  rfl

/-- The scorer reads the household email list only through membership and
length, so corresponding households receive identical scores, details and
flag sets. -/
theorem score_hhRel (e : ExcelRecord) {h₁ h₂ : HouseholdRecord}
    (hr : hhRel h₁ h₂) :
    calculate_match_score e h₁ = calculate_match_score e h₂ := by
  obtain ⟨her, l₁, l₂, he₁, he₂, hperm⟩ := hr
  have h₁eq : ({ h₁ with email := .list l₁ } : HouseholdRecord) = h₁ := by
    rw [← he₁]
  have h₂eq : ({ h₁ with email := .list l₂ } : HouseholdRecord) = h₂ := by
    have step : ({ h₁ with email := .list l₂ } : HouseholdRecord) =
        { eraseEmails h₁ with email := .list l₂ } := rfl
    rw [step, her]
    show ({ eraseEmails h₂ with email := .list l₂ } : HouseholdRecord) = h₂
    rw [show eraseEmails h₂ = { h₂ with email := .list [] } from rfl, ← he₂]
  calc calculate_match_score e h₁
      = calculate_match_score e { h₁ with email := .list l₁ } := by rw [h₁eq]
    _ = calculate_match_score e { h₁ with email := .list l₂ } :=
        score_email_congr e h₁ hperm
    _ = calculate_match_score e h₂ := by rw [h₂eq]

theorem forall₂_getD {α β : Type} {R : α → β → Prop} (d₁ : α) (d₂ : β) :
    ∀ {l₁ : List α} {l₂ : List β}, List.Forall₂ R l₁ l₂ →
    ∀ i, i < l₁.length → R (l₁.getD i d₁) (l₂.getD i d₂) := by
  intro l₁ l₂ h
  induction h with
  | nil => intro i hi; simp at hi
  | cons hab _ ih =>
    intro i hi
    cases i with
    | zero => simpa using hab
    | succ n =>
      simp only [List.getD_cons_succ]
      exact ih n (by simpa using hi)

theorem forall₂_of_getD {α β : Type} (R : α → β → Prop) (d₁ : α) (d₂ : β) :
    ∀ (l₁ : List α) (l₂ : List β), l₁.length = l₂.length →
    (∀ i, i < l₁.length → R (l₁.getD i d₁) (l₂.getD i d₂)) →
    List.Forall₂ R l₁ l₂ := by
  intro l₁
  induction l₁ with
  | nil =>
    intro l₂ hlen _
    cases l₂ with
    | nil => constructor
    | cons y u => simp at hlen
  | cons x t ih =>
    intro l₂ hlen hR
    cases l₂ with
    | nil => simp at hlen
    | cons y u =>
      refine List.Forall₂.cons ?_ (ih u ?_ ?_)
      · simpa using hR 0 (by simp)
      · simpa using hlen
      · intro i hi
        simpa using hR (i + 1) (by simpa using hi)

theorem getD_mem {α : Type} (d : α) :
    ∀ (l : List α) (i : Nat), i < l.length → l.getD i d ∈ l := by
  intro l
  induction l with
  | nil => intro i hi; simp at hi
  | cons x t ih =>
    intro i hi
    cases i with
    | zero => exact List.mem_cons_self x t
    | succ n =>
      simp only [List.getD_cons_succ]
      exact List.mem_cons_of_mem x (ih n (by simpa using hi))

theorem getD_map_fst :
    ∀ (l : List (Nat × HouseholdRecord)) (i : Nat) (d : Nat × HouseholdRecord),
    i < l.length → (l.map Prod.fst).getD i 0 = (l.getD i d).1 := by
  intro l
  induction l with
  | nil => intro i d hi; simp at hi
  | cons x t ih =>
    intro i d hi
    cases i with
    | zero => rfl
    | succ n =>
      simp only [List.map_cons, List.getD_cons_succ]
      exact ih n d (by simpa using hi)

theorem enumFromL_mem_get :
    ∀ (l : List HouseholdRecord) (k : Nat) (p : Nat × HouseholdRecord),
    p ∈ enumFromL k l →
    k ≤ p.1 ∧ p.1 < k + l.length ∧ p.2 = l.getD (p.1 - k) emptyHousehold := by
  intro l
  induction l with
  | nil => intro k p hp; simp [enumFromL] at hp
  | cons x xs ih =>
    intro k p hp
    rw [show enumFromL k (x :: xs) = (k, x) :: enumFromL (k + 1) xs from rfl] at hp
    rcases List.mem_cons.mp hp with rfl | hp2
    · refine ⟨le_rfl, by simp [List.length_cons], ?_⟩
      simp
    · obtain ⟨h1, h2, h3⟩ := ih (k + 1) p hp2
      refine ⟨by omega, by simp only [List.length_cons]; omega, ?_⟩
      rw [h3]
      rw [show p.1 - k = (p.1 - (k + 1)) + 1 from by omega]
      simp [List.getD_cons_succ]

/-- Two valid sort outcomes with the same index sequence, over corresponding
household lists, give corresponding candidate lists. -/
theorem sorted_candRel {hoa₁ hoa₂ : List HouseholdRecord}
    (hh : List.Forall₂ hhRel hoa₁ hoa₂)
    {s₁ s₂ : List (Nat × HouseholdRecord)}
    (hp₁ : s₁.Perm (enumFromL 0 hoa₁)) (hp₂ : s₂.Perm (enumFromL 0 hoa₂))
    (hidx : s₁.map Prod.fst = s₂.map Prod.fst) :
    List.Forall₂ candRel s₁ s₂ := by
  have hlen : s₁.length = s₂.length := by
    have := congrArg List.length hidx
    simpa using this
  refine forall₂_of_getD candRel (0, emptyHousehold) (0, emptyHousehold)
    s₁ s₂ hlen ?_
  intro i hi
  have hi₂ : i < s₂.length := by omega
  have hpmem : s₁.getD i (0, emptyHousehold) ∈ enumFromL 0 hoa₁ :=
    hp₁.mem_iff.mp (getD_mem _ s₁ i hi)
  have hqmem : s₂.getD i (0, emptyHousehold) ∈ enumFromL 0 hoa₂ :=
    hp₂.mem_iff.mp (getD_mem _ s₂ i hi₂)
  obtain ⟨-, hb₁, hv₁⟩ := enumFromL_mem_get hoa₁ 0 _ hpmem
  obtain ⟨-, hb₂, hv₂⟩ := enumFromL_mem_get hoa₂ 0 _ hqmem
  have hfst : (s₁.getD i (0, emptyHousehold)).1 =
      (s₂.getD i (0, emptyHousehold)).1 := by
    rw [← getD_map_fst s₁ i _ hi, ← getD_map_fst s₂ i _ hi₂, hidx]
  refine ⟨hfst, ?_⟩
  rw [hv₁, hv₂, ← hfst]
  simp only [Nat.sub_zero]
  refine forall₂_getD emptyHousehold emptyHousehold hh _ ?_
  simpa using hb₁

theorem forall₂_append {α β : Type} {R : α → β → Prop} :
    ∀ {l₁ : List α} {l₂ : List β}, List.Forall₂ R l₁ l₂ →
    ∀ {m₁ : List α} {m₂ : List β}, List.Forall₂ R m₁ m₂ →
    List.Forall₂ R (l₁ ++ m₁) (l₂ ++ m₂) := by
  intro l₁ l₂ h
  induction h with
  | nil => intro m₁ m₂ hm; exact hm
  | cons hxy _ ih => intro m₁ m₂ hm; exact List.Forall₂.cons hxy (ih hm)

theorem scanStep_hhRel (i : Nat) (e : ExcelRecord) (cl sk : Finset Nat)
    {acc₁ acc₂ : BestInfo} (hacc1 : acc₁.1 = acc₂.1)
    (hacc2 : bestOptRel acc₁.2 acc₂.2)
    {p q : Nat × HouseholdRecord} (hpq : candRel p q) :
    (scanStep realOracle i e cl sk acc₁ p).1 =
      (scanStep realOracle i e cl sk acc₂ q).1 ∧
    bestOptRel (scanStep realOracle i e cl sk acc₁ p).2
      (scanStep realOracle i e cl sk acc₂ q).2 := by
  obtain ⟨hj, hh⟩ := hpq
  have hsc : calculate_match_score e p.2 = calculate_match_score e q.2 :=
    score_hhRel e hh
  have heff : effScore realOracle i e p = effScore realOracle i e q := by
    show (calculate_match_score e p.2).1 = (calculate_match_score e q.2).1
    rw [hsc]
  have helig : eligible cl sk p = eligible cl sk q := by
    unfold eligible
    rw [hj]
  have hbd : bestOptRel (bestData realOracle i e p) (bestData realOracle i e q) := by
    show bestOptRel
      (some (p.1, p.2, (calculate_match_score e p.2).2.1,
        (calculate_match_score e p.2).2.2))
      (some (q.1, q.2, (calculate_match_score e q.2).2.1,
        (calculate_match_score e q.2).2.2))
    exact ⟨hj, hh, by rw [hsc]⟩
  by_cases he : eligible cl sk p = true
  · rw [scanStep_eff realOracle i e cl sk acc₁ p he,
      scanStep_eff realOracle i e cl sk acc₂ q (helig ▸ he), hacc1, heff]
    by_cases himp : acc₂.1 < effScore realOracle i e q
    · rw [if_pos himp, if_pos himp]
      exact ⟨rfl, hbd⟩
    · rw [if_neg himp, if_neg himp]
      exact ⟨hacc1, hacc2⟩
  · have he2 : eligible cl sk p = false := by simpa using he
    rw [scanStep_inelig realOracle i e cl sk acc₁ p he2,
      scanStep_inelig realOracle i e cl sk acc₂ q (helig ▸ he2)]
    exact ⟨hacc1, hacc2⟩

theorem scanFold_hhRel (i : Nat) (e : ExcelRecord) (cl sk : Finset Nat) :
    ∀ {l₁ l₂ : List (Nat × HouseholdRecord)}, List.Forall₂ candRel l₁ l₂ →
    ∀ (acc₁ acc₂ : BestInfo), acc₁.1 = acc₂.1 → bestOptRel acc₁.2 acc₂.2 →
    (List.foldl (scanStep realOracle i e cl sk) acc₁ l₁).1 =
      (List.foldl (scanStep realOracle i e cl sk) acc₂ l₂).1 ∧
    bestOptRel (List.foldl (scanStep realOracle i e cl sk) acc₁ l₁).2
      (List.foldl (scanStep realOracle i e cl sk) acc₂ l₂).2 := by
  intro l₁ l₂ hl
  induction hl with
  | nil => intro acc₁ acc₂ h1 h2; exact ⟨h1, h2⟩
  | cons hpq _ ih =>
    intro acc₁ acc₂ h1 h2
    simp only [List.foldl_cons]
    obtain ⟨hs1, hs2⟩ := scanStep_hhRel i e cl sk h1 h2 hpq
    exact ih _ _ hs1 hs2

theorem scanHoa_hhRel (i : Nat) (e : ExcelRecord) (cl sk : Finset Nat)
    {l₁ l₂ : List (Nat × HouseholdRecord)}
    (hl : List.Forall₂ candRel l₁ l₂) :
    (scanHoa realOracle i e cl sk l₁).1 = (scanHoa realOracle i e cl sk l₂).1 ∧
    bestOptRel (scanHoa realOracle i e cl sk l₁).2
      (scanHoa realOracle i e cl sk l₂).2 := by
  unfold scanHoa
  exact scanFold_hhRel i e cl sk hl (0, none) (0, none) rfl True.intro

/-- `eraseEmails`-equal households agree on every non-email field needed by
the emitted rows and the sort key. -/
theorem eraseEmails_fields {h₁ h₂ : HouseholdRecord}
    (her : eraseEmails h₁ = eraseEmails h₂) :
    h₁.firstName = h₂.firstName ∧ h₁.lastName = h₂.lastName ∧
    h₁.mailingStreet = h₂.mailingStreet ∧ h₁.mailingCity = h₂.mailingCity ∧
    h₁.mailingStateZip = h₂.mailingStateZip ∧
    h₁.numUniquePeople = h₂.numUniquePeople := by
  obtain ⟨f₁, n₁, m₁, ps₁, pc₁, pz₁, fp₁, ms₁, mc₁, mz₁, fm₁, ic₁, nu₁, ne₁⟩ := h₁
  obtain ⟨f₂, n₂, m₂, ps₂, pc₂, pz₂, fp₂, ms₂, mc₂, mz₂, fm₂, ic₂, nu₂, ne₂⟩ := h₂
  simp only [eraseEmails, HouseholdRecord.mk.injEq] at her
  simp_all

/-- `eraseRowOrders`-equal rows agree on the final sort's keys. -/
theorem eraseRowOrders_fields {a b : MatchRow}
    (h : eraseRowOrders a = eraseRowOrders b) :
    a.score = b.score ∧ a.matchType = b.matchType := by
  obtain ⟨o₁, j₁, a₁, b₁, c₁, d₁, e₁, f₁, g₁, i₁, m₁, n₁, p₁, q₁, s₁, t₁, u₁,
    v₁, w₁, x₁⟩ := a
  obtain ⟨o₂, j₂, a₂, b₂, c₂, d₂, e₂, f₂, g₂, i₂, m₂, n₂, p₂, q₂, s₂, t₂, u₂,
    v₂, w₂, x₂⟩ := b
  simp only [eraseRowOrders, MatchRow.mk.injEq] at h
  simp_all

theorem mkMatchedRow_rowRel (σf₁ σf₂ : FlagOrder)
    (hf₁ : FlagOrderValid σf₁) (hf₂ : FlagOrderValid σf₂)
    (i : Nat) (e : ExcelRecord) {j₁ j₂ : Nat} (hj : j₁ = j₂)
    {h₁ h₂ : HouseholdRecord} (hh : hhRel h₁ h₂) (s : Nat)
    {d₁ d₂ : MatchDetails} (hd : d₁ = d₂)
    {fl₁ fl₂ : Finset MatchFlags} (hfl : fl₁ = fl₂) :
    rowRel (mkMatchedRow i e j₁ h₁ s d₁ (σf₁ fl₁))
      (mkMatchedRow i e j₂ h₂ s d₂ (σf₂ fl₂)) := by
  subst hj
  subst hd
  subst hfl
  obtain ⟨her, l₁, l₂, he₁, he₂, hperm⟩ := hh
  obtain ⟨hfn, hln, hms, hmc, hmz, -⟩ := eraseEmails_fields her
  refine ⟨?_, ?_, ?_⟩
  · simp [eraseRowOrders, mkMatchedRow, hfn, hln, hms, hmc, hmz]
  · show optEfRel (some h₁.email) (some h₂.email)
    rw [he₁, he₂]
    exact hperm
  · show (σf₁ fl₁).Perm (σf₂ fl₁)
    exact (hf₁ fl₁).trans (hf₂ fl₁).symm

theorem ownerStep_hhRel (skip : Nat → Finset Nat) (σf₁ σf₂ : FlagOrder)
    (hf₁ : FlagOrderValid σf₁) (hf₂ : FlagOrderValid σf₂)
    {sorted₁ sorted₂ : List (Nat × HouseholdRecord)}
    (hsort : List.Forall₂ candRel sorted₁ sorted₂)
    {st₁ st₂ : PassState} (hst : stRel st₁ st₂) (p : Nat × ExcelRecord) :
    stRel (ownerStep realOracle skip σf₁ sorted₁ st₁ p)
      (ownerStep realOracle skip σf₂ sorted₂ st₂ p) := by
  obtain ⟨hres, hhoa, hexc⟩ := hst
  have hsc := scanHoa_hhRel p.1 p.2 st₂.matchedHoa (skip p.1) hsort
  by_cases h50 : 50 ≤ (scanHoa realOracle p.1 p.2 st₂.matchedHoa (skip p.1) sorted₂).1
  · have h50₁ : 50 ≤ (scanHoa realOracle p.1 p.2 st₁.matchedHoa (skip p.1) sorted₁).1 := by
      rw [hhoa, hsc.1]
      exact h50
    rcases hb₂ : (scanHoa realOracle p.1 p.2 st₂.matchedHoa (skip p.1) sorted₂).2
      with _ | b₂
    · have hb₁ : (scanHoa realOracle p.1 p.2 st₁.matchedHoa (skip p.1) sorted₁).2 =
          none := by
        have h2 := hsc.2
        rw [hb₂] at h2
        rw [hhoa]
        rcases hB : (scanHoa realOracle p.1 p.2 st₂.matchedHoa (skip p.1) sorted₁).2
          with _ | b₁
        · rfl
        · rw [hB] at h2
          exact h2.elim
      rw [ownerStep_eq_of_none realOracle skip σf₁ sorted₁ st₁ p hb₁,
        ownerStep_eq_of_none realOracle skip σf₂ sorted₂ st₂ p hb₂]
      exact ⟨hres, hhoa, hexc⟩
    · obtain ⟨j₂, H₂, d₂, fl₂⟩ := b₂
      have h2 := hsc.2
      rw [hb₂] at h2
      rcases hb₁ : (scanHoa realOracle p.1 p.2 st₂.matchedHoa (skip p.1) sorted₁).2
        with _ | b₁
      · rw [hb₁] at h2
        exact h2.elim
      obtain ⟨j₁, H₁, d₁, fl₁⟩ := b₁
      rw [hb₁] at h2
      obtain ⟨hj, hH, hdfl⟩ := h2
      have hjj : j₁ = j₂ := hj
      have hH2 : hhRel H₁ H₂ := hH
      have hd : d₁ = d₂ := congrArg Prod.fst hdfl
      have hfl : fl₁ = fl₂ := congrArg Prod.snd hdfl
      have hb₁' : (scanHoa realOracle p.1 p.2 st₁.matchedHoa (skip p.1) sorted₁).2 =
          some (j₁, H₁, d₁, fl₁) := by
        rw [hhoa]
        exact hb₁
      have hS : (scanHoa realOracle p.1 p.2 st₁.matchedHoa (skip p.1) sorted₁).1 =
          (scanHoa realOracle p.1 p.2 st₂.matchedHoa (skip p.1) sorted₂).1 := by
        rw [hhoa, hsc.1]
      rw [ownerStep_eq_of_some realOracle skip σf₁ sorted₁ st₁ p j₁ H₁ d₁ fl₁
          hb₁' h50₁,
        ownerStep_eq_of_some realOracle skip σf₂ sorted₂ st₂ p j₂ H₂ d₂ fl₂
          hb₂ h50, hS]
      refine ⟨?_, ?_, ?_⟩
      · exact forall₂_append hres (List.Forall₂.cons
          (mkMatchedRow_rowRel σf₁ σf₂ hf₁ hf₂ p.1 p.2 hjj hH2 _ hd hfl)
          List.Forall₂.nil)
      · rw [hjj, hhoa]
      · rw [hexc]
  · have h50₁ : ¬ 50 ≤ (scanHoa realOracle p.1 p.2 st₁.matchedHoa (skip p.1) sorted₁).1 := by
      rw [hhoa, hsc.1]
      exact h50
    rw [ownerStep_eq_of_low realOracle skip σf₁ sorted₁ st₁ p h50₁,
      ownerStep_eq_of_low realOracle skip σf₂ sorted₂ st₂ p h50]
    exact ⟨hres, hhoa, hexc⟩

theorem foldl_ownerStep_hhRel (skip : Nat → Finset Nat) (σf₁ σf₂ : FlagOrder)
    (hf₁ : FlagOrderValid σf₁) (hf₂ : FlagOrderValid σf₂)
    {sorted₁ sorted₂ : List (Nat × HouseholdRecord)}
    (hsort : List.Forall₂ candRel sorted₁ sorted₂) :
    ∀ (l : List (Nat × ExcelRecord)) {st₁ st₂ : PassState}, stRel st₁ st₂ →
    stRel (List.foldl (ownerStep realOracle skip σf₁ sorted₁) st₁ l)
      (List.foldl (ownerStep realOracle skip σf₂ sorted₂) st₂ l) := by
  intro l
  induction l with
  | nil => intro st₁ st₂ h; exact h
  | cons p t ih =>
    intro st₁ st₂ h
    simp only [List.foldl_cons]
    exact ih (ownerStep_hhRel skip σf₁ σf₂ hf₁ hf₂ hsort h p)

theorem rowRel_refl (r : MatchRow) : rowRel r r := by
  refine ⟨rfl, ?_, List.Perm.refl _⟩
  cases hoe : r.hoaEmail with
  | none => exact True.intro
  | some ef =>
    cases ef with
    | str s => exact rfl
    | list l => exact List.Perm.refl _

theorem forall₂_rowRel_refl (l : List MatchRow) : List.Forall₂ rowRel l l := by
  induction l with
  | nil => constructor
  | cons x t ih => exact List.Forall₂.cons (rowRel_refl x) ih

theorem newRow_rowRel {j₁ j₂ : Nat} (hj : j₁ = j₂) {h₁ h₂ : HouseholdRecord}
    (hh : hhRel h₁ h₂) : rowRel (newRow j₁ h₁) (newRow j₂ h₂) := by
  subst hj
  obtain ⟨her, l₁, l₂, he₁, he₂, hperm⟩ := hh
  obtain ⟨hfn, hln, hms, hmc, hmz, -⟩ := eraseEmails_fields her
  refine ⟨?_, ?_, ?_⟩
  · simp [eraseRowOrders, newRow, hfn, hln, hms, hmc, hmz]
  · show optEfRel (some h₁.email) (some h₂.email)
    rw [he₁, he₂]
    exact hperm
  · exact List.Perm.refl _

theorem newsList_hhRel (S : Finset Nat) :
    ∀ {l₁ l₂ : List (Nat × HouseholdRecord)}, List.Forall₂ candRel l₁ l₂ →
    List.Forall₂ rowRel
      (l₁.filterMap (fun p => if p.1 ∈ S then none else some (newRow p.1 p.2)))
      (l₂.filterMap (fun p => if p.1 ∈ S then none else some (newRow p.1 p.2))) := by
  intro l₁ l₂ h
  induction h with
  | nil => constructor
  | @cons p q t u hpq _ ih =>
    obtain ⟨j₁, H₁⟩ := p
    obtain ⟨j₂, H₂⟩ := q
    have hj : j₁ = j₂ := hpq.1
    have hh : hhRel H₁ H₂ := hpq.2
    subst hj
    by_cases hmem : j₁ ∈ S
    · rw [skipList_cons_mem newRow S j₁ H₁ _ hmem,
        skipList_cons_mem newRow S j₁ H₂ _ hmem]
      exact ih
    · rw [skipList_cons_notmem newRow S j₁ H₁ _ hmem,
        skipList_cons_notmem newRow S j₁ H₂ _ hmem]
      exact List.Forall₂.cons (newRow_rowRel rfl hh) ih

theorem rowLt_rowRel {a a' b b' : MatchRow} (ha : rowRel a a') (hb : rowRel b b') :
    rowLt a b = rowLt a' b' := by
  obtain ⟨hsa, hta⟩ := eraseRowOrders_fields ha.1
  obtain ⟨hsb, htb⟩ := eraseRowOrders_fields hb.1
  unfold rowLt
  rw [hsa, hsb, hta, htb]

theorem insLt_rowRel {x x' : MatchRow} (hx : rowRel x x') :
    ∀ {l l' : List MatchRow}, List.Forall₂ rowRel l l' →
    List.Forall₂ rowRel (insLt rowLt x l) (insLt rowLt x' l') := by
  intro l l' h
  induction h with
  | nil => exact List.Forall₂.cons hx List.Forall₂.nil
  | @cons y y' t t' hy htail ih =>
    unfold insLt
    rw [rowLt_rowRel hy hx]
    by_cases hc : rowLt y' x' = true
    · rw [if_pos hc, if_pos hc]
      exact List.Forall₂.cons hy ih
    · rw [if_neg hc, if_neg hc]
      exact List.Forall₂.cons hx (List.Forall₂.cons hy htail)

theorem sortLt_rowRel :
    ∀ {l l' : List MatchRow}, List.Forall₂ rowRel l l' →
    List.Forall₂ rowRel (sortLt rowLt l) (sortLt rowLt l') := by
  intro l l' h
  induction h with
  | nil => constructor
  | @cons y y' t t' hy _ ih =>
    show List.Forall₂ rowRel (insLt rowLt y (sortLt rowLt t))
      (insLt rowLt y' (sortLt rowLt t'))
    exact insLt_rowRel hy ih

theorem hhRel_map_key :
    ∀ {l₁ l₂ : List HouseholdRecord}, List.Forall₂ hhRel l₁ l₂ →
    l₁.map HouseholdRecord.numUniquePeople =
      l₂.map HouseholdRecord.numUniquePeople := by
  intro l₁ l₂ h
  induction h with
  | nil => rfl
  | @cons a b t u hab _ ih =>
    have hn : a.numUniquePeople = b.numUniquePeople :=
      (eraseEmails_fields hab.1).2.2.2.2.2
    simp only [List.map_cons, hn, ih]

/-- Counterexample to C6 as stated: two runs of the full engine on the same
input, differing only in the enumeration order their Python sets happen to
produce, give different outputs — the email list order carried into the
result rows is not a function of the input. -/
theorem email_order_cex :
    EmailOrderValid List.dedup ∧ EmailOrderValid revOrder ∧
    SortOracleOK stableSortOracle ∧ FlagOrderValid canonFlagList ∧
    engine List.dedup stableSortOracle canonFlagList [] cexBatch6 ≠
      engine revOrder stableSortOracle canonFlagList [] cexBatch6 :=
  ⟨fun _ => List.Perm.refl _, fun _ => List.reverse_perm _, stableSort_ok,
    canonFlagList_valid, by decide⟩

/-- C6 amended: identical inputs in identical iteration order determine the
engine's output only up to the enumeration orders of its Python sets.  The
condensed email lists (`list(set(...))`) and the listed flag sets
(`[flag.name for flag in best_flags]`) depend on per-process hashing, not
on the input, while the occupant-count sort — a fixed deterministic
key-determined routine — is shared by both runs.  Any two runs of
`condense_records` followed by `match_records` therefore agree row by row
on every field except each row's household email list and Match_Flags list,
which agree up to permutation; the outputs need not be identical. -/
theorem determinism_up_to_orders (σe₁ σe₂ : List String → List String)
    (σs : SortOracle) (σf₁ σf₂ : FlagOrder)
    (he₁ : EmailOrderValid σe₁) (he₂ : EmailOrderValid σe₂)
    (hs : SortOracleOK σs) (hk : KeyDetermined σs)
    (hf₁ : FlagOrderValid σf₁) (hf₂ : FlagOrderValid σf₂)
    (excel : List ExcelRecord) (df : List RawContact) :
    List.Forall₂ rowRel (engine σe₁ σs σf₁ excel df)
      (engine σe₂ σs σf₂ excel df) := by
  have hcond := condense_hhRel σe₁ σe₂ he₁ he₂ df
  have hidx := hk (condense_records σe₁ df) (condense_records σe₂ df)
    (hhRel_map_key hcond)
  have hsorted : List.Forall₂ candRel (σs (condense_records σe₁ df))
      (σs (condense_records σe₂ df)) :=
    sorted_candRel hcond (hs (condense_records σe₁ df)).1
      (hs (condense_records σe₂ df)).1 hidx
  show List.Forall₂ rowRel
    (matchRecordsWith realOracle (fun _ => ∅) σf₁
      (σs (condense_records σe₁ df)) excel)
    (matchRecordsWith realOracle (fun _ => ∅) σf₂
      (σs (condense_records σe₂ df)) excel)
  simp only [matchRecordsWith]
  have hst0 : stRel ⟨[], ∅, ∅⟩ ⟨[], ∅, ∅⟩ := ⟨List.Forall₂.nil, rfl, rfl⟩
  have hst := foldl_ownerStep_hhRel (fun _ => ∅) σf₁ σf₂ hf₁ hf₂ hsorted
    (enumFromL 0 excel) hst0
  obtain ⟨hres, hhoa, hexc⟩ := hst
  apply sortLt_rowRel
  refine forall₂_append (forall₂_append hres ?_) ?_
  · rw [hexc]
    exact forall₂_rowRel_refl _
  · rw [hhoa]
    exact newsList_hhRel _ hsorted

/-- Witness for the amended C6: concrete valid enumeration oracles — the
two email orders differ and the two flag orders differ — on the two-email
batch; the outputs correspond row by row up to email-list and flag-list
permutation. -/
theorem determinism_up_to_orders_witness :
    EmailOrderValid List.dedup ∧ EmailOrderValid revOrder ∧
    SortOracleOK stableSortOracle ∧ KeyDetermined stableSortOracle ∧
    FlagOrderValid canonFlagList ∧ FlagOrderValid revFlagList ∧
    List.Forall₂ rowRel
      (engine List.dedup stableSortOracle canonFlagList [] cexBatch6)
      (engine revOrder stableSortOracle revFlagList [] cexBatch6) :=
  ⟨fun _ => List.Perm.refl _, fun _ => List.reverse_perm _, stableSort_ok,
    stableSort_keyDet, canonFlagList_valid, revFlagList_valid,
    determinism_up_to_orders List.dedup revOrder stableSortOracle canonFlagList
      revFlagList (fun _ => List.Perm.refl _) (fun _ => List.reverse_perm _)
      stableSort_ok stableSort_keyDet canonFlagList_valid revFlagList_valid
      [] cexBatch6⟩

end HM
